import Mathlib

/-!
Verification of the Senorita Voice IDE backend (CRACE core) against its
natural-language specification.

The Python sources under `backend/app/services` and `backend/app/agents`
are shallowly embedded below: Python strings become `List Char` where
character arithmetic matters and `String` where only identity matters,
`dict` fields become total functions (with an explicit key list where the
code tests key presence), `set` fields become duplicate-free insertion
lists, and floats that only ever hold exact decimal weights become `ℚ`.
Machine behaviour that the claims do not touch (tree-sitter parsing, the
sentence-transformer model, MD5 hashing, disk I/O) enters as explicit
inputs: parsed `FileSymbols` bundles, pre-computed semantic result lists,
a stored stable-id field, and an optional already-parsed JSON document.
-/

/-! ## Token estimation (`context_manager.py`, lines 25-62) -/

/-- Bool test: `pat` is a prefix of the second list (Python `str.startswith`
used only as a building block for substring search). -/
def leadsWith : List Char → List Char → Bool
  | [], _ => true
  | _ :: _, [] => false
  | p :: ps, c :: cs => p == c && leadsWith ps cs

/-- Bool test: `pat` occurs as a contiguous substring (Python `pat in text`). -/
def hasSeg (pat : List Char) : List Char → Bool
  | [] => leadsWith pat []
  | c :: rest => leadsWith pat (c :: rest) || hasSeg pat rest

/-- The code-indicator strings of `estimate_tokens`
(`["{", "}", "(", ")", "def ", "function ", "class ", "import ", "const ", "let "]`). -/
def code_indicators : List (List Char) :=
  [['\x7b'], ['\x7d'], ['('], [')'],
   ['d','e','f',' '], ['f','u','n','c','t','i','o','n',' '],
   ['c','l','a','s','s',' '], ['i','m','p','o','r','t',' '],
   ['c','o','n','s','t',' '], ['l','e','t',' ']]

/-- `any(indicator in text for indicator in code_indicators)`. -/
def looksLikeCode (text : List Char) : Bool :=
  code_indicators.any (fun ind => hasSeg ind text)

/-- `estimate_tokens` (`context_manager.py` lines 25-40): 0 for the empty
string, else `len(text) // (3 if is_code else 4)`. -/
def estimate_tokens (text : List Char) : Nat :=
  if text = [] then 0
  else text.length / (if looksLikeCode text then 3 else 4)

/-- The characters of the string `"{}()[];"` tested by `truncate_to_tokens`. -/
def punctChars : List Char := ['\x7b', '\x7d', '(', ')', '[', ']', ';']

/-- `rfind("\n")` on a list of characters: index of the last newline, `-1`
when there is none (Python `str.rfind`). -/
def rfindNewline (text : List Char) : Int :=
  match text with
  | [] => -1
  | c :: rest =>
      let r := rfindNewline rest
      if r ≥ 0 then r + 1 else if c = '\n' then 0 else -1

/-- The appended marker `"\n... (truncated)"`. -/
def truncMarker : List Char :=
  '\n' :: ['.','.','.',' ','(','t','r','u','n','c','a','t','e','d',')']

/-- `truncate_to_tokens` (`context_manager.py` lines 43-62).  The float
comparison `last_newline > max_chars * 0.8` is modelled exactly as the
rational inequality `5 * last_newline > 4 * max_chars`. -/
def truncate_to_tokens (text : List Char) (max_tokens : Nat) : List Char :=
  if estimate_tokens text ≤ max_tokens then text
  else
    let chars_per_token : Nat := if punctChars.any (fun c => text.contains c) then 3 else 4
    let max_chars := max_tokens * chars_per_token
    if text.length ≤ max_chars then text
    else
      let truncated := text.take max_chars
      let last_newline := rfindNewline truncated
      let truncated :=
        if 5 * last_newline > 4 * (max_chars : Int) then truncated.take last_newline.toNat
        else truncated
      truncated ++ truncMarker

/-! ### C9 — token-estimate monotonicity -/

theorem leadsWith_append (p l b : List Char) (h : leadsWith p l = true) :
    leadsWith p (l ++ b) = true := by
  induction p generalizing l with
  | nil => simp [leadsWith]
  | cons x xs ih =>
      cases l with
      | nil => simp [leadsWith] at h
      | cons c cs =>
          simp only [leadsWith, Bool.and_eq_true, beq_iff_eq] at h
          simp only [List.cons_append, leadsWith, Bool.and_eq_true, beq_iff_eq]
          exact ⟨h.1, ih cs h.2⟩

theorem hasSeg_nil_pat (l : List Char) : hasSeg [] l = true := by
  induction l with
  | nil => rfl
  | cons c rest ih => simp [hasSeg, leadsWith]

theorem hasSeg_append (p a b : List Char) (h : hasSeg p a = true) :
    hasSeg p (a ++ b) = true := by
  induction a with
  | nil =>
      have hp : p = [] := by
        cases p with
        | nil => rfl
        | cons x xs => simp [hasSeg, leadsWith] at h
      subst hp
      exact hasSeg_nil_pat b
  | cons c rest ih =>
      simp only [hasSeg, Bool.or_eq_true] at h
      rcases h with h | h
      · simp only [List.cons_append, hasSeg, Bool.or_eq_true]
        exact Or.inl (leadsWith_append p (c :: rest) b h)
      · simp only [List.cons_append, hasSeg, Bool.or_eq_true]
        exact Or.inr (ih h)

theorem looksLikeCode_append (a b : List Char) (h : looksLikeCode a = true) :
    looksLikeCode (a ++ b) = true := by
  simp only [looksLikeCode, List.any_eq_true] at h ⊢
  rcases h with ⟨ind, hmem, hseg⟩
  exact ⟨ind, hmem, hasSeg_append ind a b hseg⟩

/-- C9: token estimation is monotone under concatenation:
`estimate_tokens(a + b) ≥ estimate_tokens(a)` for all strings `a`, `b`,
despite the 4-vs-3 chars-per-token switch and integer floor division. -/
theorem C9_estimate_tokens_monotone (a b : List Char) :
    estimate_tokens a ≤ estimate_tokens (a ++ b) := by
  by_cases ha : a = []
  · subst ha
    simp [estimate_tokens]
  · have hab : a ++ b ≠ [] := by
      intro h
      exact ha (List.append_eq_nil.mp h).1
    have hlen : a.length ≤ (a ++ b).length := by
      simp
    rw [estimate_tokens, estimate_tokens, if_neg ha, if_neg hab]
    by_cases hc : looksLikeCode a = true
    · rw [if_pos hc, if_pos (looksLikeCode_append a b hc)]
      exact Nat.div_le_div_right hlen
    · rw [if_neg hc]
      have h4 : a.length / 4 ≤ (a ++ b).length / 4 := Nat.div_le_div_right hlen
      by_cases hcab : looksLikeCode (a ++ b) = true
      · rw [if_pos hcab]
        exact le_trans h4 (Nat.div_le_div_left (by norm_num) (by norm_num))
      · rw [if_neg hcab]
        exact h4

/-! ## Context assembler (`context_manager.py`, lines 69-259) -/

/-- `ContextItem` dataclass (`context_manager.py` lines 69-80). -/
structure ContextItem where
  content : List Char
  priority : Nat
  category : String
  source : String
  tokens : Nat
deriving DecidableEq

/-- The `__post_init__` rule: a zero `tokens` field is replaced by the
estimate of the content. -/
def ContextItem.make (content : List Char) (priority : Nat)
    (category source : String) (tokens : Nat) : ContextItem :=
  { content := content, priority := priority, category := category,
    source := source,
    tokens := if tokens = 0 then estimate_tokens content else tokens }

/-- `ContextBudget` dataclass (`context_manager.py` lines 83-93). -/
structure ContextBudget where
  total : Nat
  selection : Nat
  cursor_context : Nat
  current_file : Nat
  symbols : Nat
  history : Nat
  memory : Nat
  project : Nat
deriving DecidableEq

/-- `ContextBudget(total=max_tokens)` with the dataclass defaults. -/
def ContextBudget.defaults (total : Nat) : ContextBudget :=
  { total := total, selection := 1500, cursor_context := 1000,
    current_file := 2000, symbols := 1500, history := 1000,
    memory := 500, project := 500 }

/-- `_get_category_budget` (`context_manager.py` lines 151-162); unknown
categories default to 500. -/
def getCategoryBudget (b : ContextBudget) (category : String) : Nat :=
  if category = "selection" then b.selection
  else if category = "cursor" then b.cursor_context
  else if category = "file" then b.current_file
  else if category = "symbol" then b.symbols
  else if category = "history" then b.history
  else if category = "memory" then b.memory
  else if category = "project" then b.project
  else 500

/-- `AssembledContext` dataclass (`context_manager.py` lines 96-104). -/
structure AssembledContext where
  system_context : List Char
  user_context : List Char
  total_tokens : Nat
  items_included : List String
  items_truncated : List String
  items_excluded : List String
deriving DecidableEq

/-- The loop state of `ContextWindowManager.assemble`: per-category usage,
the three result lists and the running token total. -/
structure AsmState where
  usage : String → Nat
  included : List ContextItem
  truncated : List String
  excluded : List String
  total : Nat

def asmInit : AsmState :=
  { usage := fun _ => 0, included := [], truncated := [], excluded := [], total := 0 }

/-- One iteration of the `for item in sorted_items` loop of `assemble`
(`context_manager.py` lines 196-239).  Python's signed `remaining <= 0`
tests coincide with the truncated-subtraction tests `= 0` used here, since
the remainders are only read further when positive. -/
def asmStep (maxTokens : Nat) (budget : ContextBudget)
    (st : AsmState) (item : ContextItem) : AsmState :=
  let cb := getCategoryBudget budget item.category
  let cu := st.usage item.category
  let catRem := cb - cu
  let totRem := maxTokens - st.total
  if totRem = 0 then { st with excluded := st.excluded ++ [item.source] }
  else if catRem = 0 then { st with excluded := st.excluded ++ [item.source] }
  else
    let avail := min catRem totRem
    if item.tokens ≤ avail then
      { st with included := st.included ++ [item],
                total := st.total + item.tokens,
                usage := fun c => if c = item.category then cu + item.tokens else st.usage c }
    else
      let tc := truncate_to_tokens item.content avail
      let tt := estimate_tokens tc
      if 100 < tt then
        { st with
          included := st.included ++
            [{ content := tc, priority := item.priority, category := item.category,
               source := item.source, tokens := tt }],
          total := st.total + tt,
          usage := fun c => if c = item.category then cu + tt else st.usage c,
          truncated := st.truncated ++ [item.source] }
      else { st with excluded := st.excluded ++ [item.source] }

/-- The full budget loop over the (already sorted and filtered) items. -/
def assembleCore (maxTokens : Nat) (budget : ContextBudget)
    (items : List ContextItem) : AsmState :=
  items.foldl (asmStep maxTokens budget) asmInit

/-- Stable descending insertion: place `a` before the first element it is
`geKey`-greater-or-equal to.  Used to model Python's stable `sorted(...,
reverse=True)`: the stable descending ordering of a list is unique, so any
stable sort realises it. -/
def insSorted {α : Type} (geKey : α → α → Bool) (a : α) : List α → List α
  | [] => [a]
  | x :: xs => if geKey a x then a :: x :: xs else x :: insSorted geKey a xs

/-- Stable descending sort (Python `sorted(..., reverse=True)` /
`sorted(..., key=lambda x: -score)`). -/
def pySortDesc {α : Type} (geKey : α → α → Bool) (l : List α) : List α :=
  l.foldr (insSorted geKey) []

theorem insSorted_perm {α : Type} (geKey : α → α → Bool) (a : α) (l : List α) :
    (insSorted geKey a l).Perm (a :: l) := by
  induction l with
  | nil => simp [insSorted]
  | cons x xs ih =>
      by_cases h : geKey a x = true
      · simp [insSorted, h]
      · simp only [insSorted, h, if_false, Bool.false_eq_true]
        exact (ih.cons x).trans (List.Perm.swap a x xs)

theorem pySortDesc_perm {α : Type} (geKey : α → α → Bool) (l : List α) :
    (pySortDesc geKey l).Perm l := by
  induction l with
  | nil => simp [pySortDesc]
  | cons x xs ih =>
      exact ((insSorted_perm geKey x (pySortDesc geKey xs)).trans (ih.cons x))

theorem insSorted_sorted {α : Type} (geKey : α → α → Bool)
    (htot : ∀ a b, geKey a b = true ∨ geKey b a = true)
    (htrans : ∀ a b c, geKey a b = true → geKey b c = true → geKey a c = true)
    (a : α) (l : List α) (hl : l.Pairwise (fun x y => geKey x y = true)) :
    (insSorted geKey a l).Pairwise (fun x y => geKey x y = true) := by
  induction l with
  | nil => simp [insSorted]
  | cons x xs ih =>
      rcases List.pairwise_cons.mp hl with ⟨hx, hxs⟩
      by_cases h : geKey a x = true
      · simp only [insSorted, h, if_true]
        refine List.pairwise_cons.mpr ⟨?_, hl⟩
        intro y hy
        rcases List.mem_cons.mp hy with hy1 | hy1
        · subst hy1
          exact h
        · exact htrans a x y h (hx y hy1)
      · simp only [insSorted, h, if_false, Bool.false_eq_true]
        refine List.pairwise_cons.mpr ⟨?_, ih hxs⟩
        intro y hy
        have hxa : geKey x a = true := by
          rcases htot a x with h1 | h1
          · exact absurd h1 h
          · exact h1
        have hmem := (insSorted_perm geKey a xs).mem_iff.mp hy
        rcases List.mem_cons.mp hmem with hy1 | hy1
        · subst hy1
          exact hxa
        · exact hx y hy1

theorem pySortDesc_sorted {α : Type} (geKey : α → α → Bool)
    (htot : ∀ a b, geKey a b = true ∨ geKey b a = true)
    (htrans : ∀ a b c, geKey a b = true → geKey b c = true → geKey a c = true)
    (l : List α) :
    (pySortDesc geKey l).Pairwise (fun x y => geKey x y = true) := by
  induction l with
  | nil => simp [pySortDesc]
  | cons x xs ih => exact insSorted_sorted geKey htot htrans x _ ih

/-- `sorted(self.items, key=lambda x: x.priority, reverse=True)` — a stable
sort, descending on priority. -/
def sortByPriority (items : List ContextItem) : List ContextItem :=
  pySortDesc (fun a b => decide (b.priority ≤ a.priority)) items

/-- The `f"[{category.upper()}] {source}:\n{content}"` part strings. -/
def formatItem (i : ContextItem) : List Char :=
  '[' :: (i.category.toUpper.toList ++ (']' :: ' ' :: (i.source.toList ++ (':' :: '\n' :: i.content))))

/-- `ContextWindowManager.assemble` (`context_manager.py` lines 164-259):
sort by priority, optionally filter categories, run the budget loop, then
route included items into the system (memory, project) or user partition. -/
def assemble (items : List ContextItem) (maxTokens : Nat)
    (budget : ContextBudget) (includeCategories : Option (List String)) :
    AssembledContext :=
  let sorted := sortByPriority items
  let sorted := match includeCategories with
    | some cats => sorted.filter (fun i => cats.contains i.category)
    | none => sorted
  let st := assembleCore maxTokens budget sorted
  let systemParts := (st.included.filter
    (fun i => i.category == "memory" || i.category == "project")).map formatItem
  let userParts := (st.included.filter
    (fun i => !(i.category == "memory" || i.category == "project"))).map formatItem
  { system_context := List.intercalate ['\n', '\n'] systemParts,
    user_context := List.intercalate ['\n', '\n'] userParts,
    total_tokens := st.total,
    items_included := st.included.map (fun i => i.source),
    items_truncated := st.truncated,
    items_excluded := st.excluded }

/-! ### C1 — assembler budget law -/

/-- Every pass of the budget loop either excludes the item, includes it
whole (within the remaining budgets), or includes a truncated copy (whose
re-estimated token count is NOT checked against the remaining budgets). -/
theorem asmStep_spec (maxT : Nat) (b : ContextBudget) (st : AsmState) (i : ContextItem) :
    asmStep maxT b st i = { st with excluded := st.excluded ++ [i.source] } ∨
    (∃ j : ContextItem, j.category = i.category ∧ j.source = i.source ∧
      j.tokens ≤ getCategoryBudget b i.category - st.usage i.category ∧
      j.tokens ≤ maxT - st.total ∧
      asmStep maxT b st i =
        { st with included := st.included ++ [j], total := st.total + j.tokens,
                  usage := fun c =>
                    if c = i.category then st.usage i.category + j.tokens else st.usage c }) ∨
    (∃ j : ContextItem, j.category = i.category ∧ j.source = i.source ∧
      asmStep maxT b st i =
        { st with included := st.included ++ [j], total := st.total + j.tokens,
                  usage := fun c =>
                    if c = i.category then st.usage i.category + j.tokens else st.usage c,
                  truncated := st.truncated ++ [i.source] }) := by
  by_cases h1 : maxT - st.total = 0
  · refine Or.inl ?_
    simp only [asmStep, h1, if_true]
  · by_cases h2 : getCategoryBudget b i.category - st.usage i.category = 0
    · refine Or.inl ?_
      simp only [asmStep, h1, h2, if_true, if_false]
    · by_cases h3 : i.tokens ≤ min (getCategoryBudget b i.category - st.usage i.category) (maxT - st.total)
      · refine Or.inr (Or.inl ⟨i, rfl, rfl,
          le_trans h3 (min_le_left _ _), le_trans h3 (min_le_right _ _), ?_⟩)
        simp only [asmStep, h1, h2, h3, if_true, if_false]
      · by_cases h4 : 100 < estimate_tokens (truncate_to_tokens i.content
            (min (getCategoryBudget b i.category - st.usage i.category) (maxT - st.total)))
        · refine Or.inr (Or.inr ⟨{ content := truncate_to_tokens i.content (min (getCategoryBudget b i.category - st.usage i.category) (maxT - st.total)), priority := i.priority, category := i.category, source := i.source, tokens := estimate_tokens (truncate_to_tokens i.content (min (getCategoryBudget b i.category - st.usage i.category) (maxT - st.total))) }, rfl, rfl, ?_⟩)
          simp only [asmStep, h1, h2, h3, h4, if_true, if_false]
        · refine Or.inl ?_
          simp only [asmStep, h1, h2, h3, h4, if_true, if_false]

/-- One pass adds the item's source once across `included`/`excluded`. -/
theorem asmStep_count (maxT : Nat) (b : ContextBudget) (st : AsmState)
    (i : ContextItem) (x : String) :
    (((asmStep maxT b st i).included.map (fun j => j.source)) ++
      (asmStep maxT b st i).excluded).count x =
    ((st.included.map (fun j => j.source)) ++ st.excluded).count x +
      List.count x [i.source] := by
  rcases asmStep_spec maxT b st i with h | ⟨j, hc, hs, h1, h2, h⟩ | ⟨j, hc, hs, h⟩
  · rw [h]
    simp only [List.count_append]
    omega
  · rw [h]
    simp only [List.map_append, List.map_cons, List.map_nil, List.count_append, hs]
    omega
  · rw [h]
    simp only [List.map_append, List.map_cons, List.map_nil, List.count_append, hs]
    omega

/-- Per element, the loop adds the item's source to exactly one of
`included`/`excluded` (counted as a multiset). -/
theorem asmFold_count (maxT : Nat) (b : ContextBudget) (items : List ContextItem)
    (st : AsmState) (x : String) :
    (((items.foldl (asmStep maxT b) st).included.map (fun i => i.source)) ++
      (items.foldl (asmStep maxT b) st).excluded).count x =
    ((st.included.map (fun i => i.source)) ++ st.excluded).count x +
      (items.map (fun i => i.source)).count x := by
  induction items generalizing st with
  | nil => simp
  | cons i rest ih =>
      rw [List.foldl_cons, ih (asmStep maxT b st i), asmStep_count]
      simp only [List.map_cons, List.count_cons, List.count_nil]
      omega

/-- The truncated-sources list only grows along the loop. -/
theorem asmFold_truncated_mono (maxT : Nat) (b : ContextBudget)
    (items : List ContextItem) (st : AsmState) :
    ∃ t, (items.foldl (asmStep maxT b) st).truncated = st.truncated ++ t := by
  induction items generalizing st with
  | nil => exact ⟨[], by simp⟩
  | cons i rest ih =>
      rw [List.foldl_cons]
      rcases ih (asmStep maxT b st i) with ⟨t, ht⟩
      rcases asmStep_spec maxT b st i with h | ⟨j, _, _, _, _, h⟩ | ⟨j, _, _, h⟩
      · exact ⟨t, by rw [ht, h]⟩
      · exact ⟨t, by rw [ht, h]⟩
      · refine ⟨[i.source] ++ t, ?_⟩
        rw [ht, h]
        simp

/-- A truncated source is always also an included source. -/
theorem asmFold_truncated_sub (maxT : Nat) (b : ContextBudget)
    (items : List ContextItem) (st : AsmState)
    (hsub : ∀ s, s ∈ st.truncated → s ∈ st.included.map (fun i => i.source)) :
    ∀ s, s ∈ (items.foldl (asmStep maxT b) st).truncated →
      s ∈ (items.foldl (asmStep maxT b) st).included.map (fun i => i.source) := by
  induction items generalizing st with
  | nil => exact hsub
  | cons i rest ih =>
      rw [List.foldl_cons]
      refine ih (asmStep maxT b st i) ?_
      rcases asmStep_spec maxT b st i with h | ⟨j, hc, hs, _, _, h⟩ | ⟨j, hc, hs, h⟩
      · rw [h]
        exact hsub
      · rw [h]
        intro s hsmem
        simp only [List.map_append]
        exact List.mem_append_left _ (hsub s hsmem)
      · rw [h]
        intro s hsmem
        simp only [List.map_append, List.map_cons, List.map_nil, hs]
        rcases List.mem_append.mp hsmem with hm | hm
        · exact List.mem_append_left _ (hsub s hm)
        · refine List.mem_append_right _ ?_
          simpa using hm

/-- Budget bookkeeping invariant of the assembly loop. -/
def GoodAsm (maxT : Nat) (b : ContextBudget) (st : AsmState) : Prop :=
  st.total = (st.included.map (fun i => i.tokens)).sum ∧
  (∀ cat, st.usage cat =
    ((st.included.filter (fun i => i.category = cat)).map (fun i => i.tokens)).sum) ∧
  st.total ≤ maxT ∧
  (∀ cat, st.usage cat ≤ getCategoryBudget b cat)

theorem goodAsm_init (maxT : Nat) (b : ContextBudget) : GoodAsm maxT b asmInit :=
  ⟨rfl, fun _ => rfl, Nat.zero_le _, fun _ => Nat.zero_le _⟩

/-- Including an item whose tokens fit the remaining budgets preserves the
bookkeeping invariant. -/
theorem goodAsm_extend (maxT : Nat) (b : ContextBudget) (st : AsmState)
    (j : ContextItem) (cat0 : String) (hc : j.category = cat0)
    (hb1 : j.tokens ≤ getCategoryBudget b cat0 - st.usage cat0)
    (hb2 : j.tokens ≤ maxT - st.total)
    (hgood : GoodAsm maxT b st) :
    GoodAsm maxT b
      { st with included := st.included ++ [j], total := st.total + j.tokens,
                usage := fun c => if c = cat0 then st.usage cat0 + j.tokens else st.usage c } := by
  rcases hgood with ⟨htot, husage, hmax, hbud⟩
  have hub : st.usage cat0 ≤ getCategoryBudget b cat0 := hbud cat0
  refine ⟨?_, ?_, ?_, ?_⟩
  · dsimp only
    simp only [List.map_append, List.sum_append, List.map_cons, List.map_nil,
      List.sum_cons, List.sum_nil]
    omega
  · intro cat
    dsimp only
    rw [List.filter_append]
    have hone : List.filter (fun k => decide (k.category = cat)) [j] =
        if cat = cat0 then [j] else [] := by
      by_cases hcat : cat = cat0
      · simp [List.filter_cons, hc, hcat]
      · simp [List.filter_cons, hc, hcat, (Ne.symm hcat : cat0 ≠ cat)]
    rw [hone]
    by_cases hcat : cat = cat0
    · subst hcat
      simp only [eq_self_iff_true, if_true, List.map_append, List.sum_append,
        List.map_cons, List.map_nil, List.sum_cons, List.sum_nil]
      rw [← husage cat]
      omega
    · simp only [hcat, if_false, List.append_nil]
      exact husage cat
  · dsimp only
    omega
  · intro cat
    dsimp only
    by_cases hcat : cat = cat0
    · subst hcat
      simp only [eq_self_iff_true, if_true]
      omega
    · rw [if_neg hcat]
      exact hbud cat
/-- If the loop never truncates (its truncated-source list does not grow),
the budget invariant is preserved. -/
theorem asmFold_good (maxT : Nat) (b : ContextBudget) (items : List ContextItem)
    (st : AsmState) (hgood : GoodAsm maxT b st)
    (hnt : (items.foldl (asmStep maxT b) st).truncated = st.truncated) :
    GoodAsm maxT b (items.foldl (asmStep maxT b) st) := by
  induction items generalizing st with
  | nil => exact hgood
  | cons i rest ih =>
      rw [List.foldl_cons] at hnt ⊢
      rcases asmStep_spec maxT b st i with h | ⟨j, hc, hs, hb1, hb2, h⟩ | ⟨j, hc, hs, h⟩
      · refine ih (asmStep maxT b st i) ?_ ?_
        · rw [h]
          exact ⟨hgood.1, hgood.2.1, hgood.2.2.1, hgood.2.2.2⟩
        · rw [hnt, h]
      · refine ih (asmStep maxT b st i) ?_ ?_
        · rw [h]
          exact goodAsm_extend maxT b st j i.category hc hb1 hb2 hgood
        · rw [hnt, h]
      · exfalso
        rcases asmFold_truncated_mono maxT b rest (asmStep maxT b st i) with ⟨t, ht⟩
        rw [ht, h] at hnt
        simp only [List.append_assoc] at hnt
        have hlen := congrArg List.length hnt
        simp only [List.length_append, List.length_cons, List.length_nil] at hlen
        omega

set_option maxRecDepth 8000

/-- The projections of `assemble` (with no category filter) in terms of the
budget loop. -/
theorem assemble_none_fields (items : List ContextItem) (maxT : Nat) (b : ContextBudget) :
    (assemble items maxT b none).items_included =
      (assembleCore maxT b (sortByPriority items)).included.map (fun i => i.source) ∧
    (assemble items maxT b none).items_truncated =
      (assembleCore maxT b (sortByPriority items)).truncated ∧
    (assemble items maxT b none).items_excluded =
      (assembleCore maxT b (sortByPriority items)).excluded ∧
    (assemble items maxT b none).total_tokens =
      (assembleCore maxT b (sortByPriority items)).total :=
  ⟨rfl, rfl, rfl, rfl⟩

/-- A 306-character item that `estimate_tokens` rates at 102 tokens (it
contains the code indicator "def ", so 3 chars/token) but that
`truncate_to_tokens` leaves untouched (it contains none of the characters
of the string listing braces, brackets, parentheses and semicolons, so the
truncation works with 4 chars/token and believes the text already fits). -/
def cexContent : List Char := 'd' :: 'e' :: 'f' :: ' ' :: List.replicate 302 'a'

def cexItem : ContextItem := ContextItem.make cexContent 100 "selection" "sel" 0

/-- C1 counterexample: assembling this single item under `max_tokens = 101`
produces `total_tokens = 102 > 101`: the truncation path re-estimates the
"truncated" content with a different chars-per-token heuristic and the
result is recorded as included without re-checking the budget, so the
claimed law `total_tokens ≤ max_tokens` is false. -/
theorem C1_counterexample :
    101 < (assemble [cexItem] 101 (ContextBudget.defaults 101) none).total_tokens := by
  decide

/-- C1 (amended): the partition law always holds — included plus excluded
sources are a permutation of the input sources and every truncated source
is also an included source — and the budget laws (`total_tokens ≤
max_tokens`, per-category sums within the per-category budgets) hold
whenever no item was truncated.  (When an item is truncated, the
re-estimated token count of the truncated copy may exceed the available
budget, as the counterexample shows.) -/
theorem C1_assembler_budget_amended (items : List ContextItem) (maxT : Nat) (b : ContextBudget) :
    ((assemble items maxT b none).items_included ++
      (assemble items maxT b none).items_excluded).Perm (items.map (fun i => i.source)) ∧
    (∀ s, s ∈ (assemble items maxT b none).items_truncated →
      s ∈ (assemble items maxT b none).items_included) ∧
    ((assemble items maxT b none).items_truncated = [] →
      (assemble items maxT b none).total_tokens ≤ maxT ∧
      ∀ cat, (((assembleCore maxT b (sortByPriority items)).included.filter
          (fun i => i.category = cat)).map (fun i => i.tokens)).sum ≤
        getCategoryBudget b cat) := by
  rcases assemble_none_fields items maxT b with ⟨hinc, htr, hexc, htot⟩
  have hperm : ((sortByPriority items).map (fun i => i.source)).Perm
      (items.map (fun i => i.source)) :=
    (pySortDesc_perm (fun a b => decide (b.priority ≤ a.priority)) items).map _
  refine ⟨?_, ?_, ?_⟩
  · rw [hinc, hexc, List.perm_iff_count]
    intro x
    have h := asmFold_count maxT b (sortByPriority items) asmInit x
    have hz : ((asmInit.included.map (fun i => i.source)) ++ asmInit.excluded).count x = 0 := rfl
    rw [hz, Nat.zero_add] at h
    rw [assembleCore, h]
    exact hperm.count_eq x
  · rw [hinc, htr, assembleCore]
    refine asmFold_truncated_sub maxT b (sortByPriority items) asmInit ?_
    intro s hs
    exact absurd hs (List.not_mem_nil s)
  · intro h0
    rw [htr, assembleCore] at h0
    have hgood := asmFold_good maxT b (sortByPriority items) asmInit
      (goodAsm_init maxT b) (h0.trans rfl)
    refine ⟨?_, ?_⟩
    · rw [htot, assembleCore]
      exact hgood.2.2.1
    · intro cat
      rw [assembleCore, ← hgood.2.1 cat]
      exact hgood.2.2.2 cat

def wContent : List Char := ['h','e','l','l','o',' ','h','i']

def wItem : ContextItem := ContextItem.make wContent 50 "history" "h1" 0

/-- C1 witness: a concrete untruncated assembly on which the amended law is
instantiated. -/
theorem C1_witness :
    (assemble [wItem] 100 (ContextBudget.defaults 100) none).items_truncated = [] ∧
    (assemble [wItem] 100 (ContextBudget.defaults 100) none).total_tokens ≤ 100 ∧
    (((assembleCore 100 (ContextBudget.defaults 100) (sortByPriority [wItem])).included.filter
        (fun i => i.category = "history")).map (fun i => i.tokens)).sum ≤
      getCategoryBudget (ContextBudget.defaults 100) "history" := by
  have ht : (assemble [wItem] 100 (ContextBudget.defaults 100) none).items_truncated = [] := by
    decide
  have h := (C1_assembler_budget_amended [wItem] 100 (ContextBudget.defaults 100)).2.2 ht
  exact ⟨ht, h.1, h.2 "history"⟩

/-! ## Symbol indexer (`symbol_indexer.py`) -/

namespace Indexer

/-- `Symbol` dataclass (`symbol_indexer.py` lines 35-49).  `kind` is one of
the literal strings of `SymbolKind`; dataclass equality compares every
field, which is what `list.remove` uses. -/
structure Symbol where
  name : String
  kind : String
  file_path : String
  line : Nat
  end_line : Nat
  column : Nat
  signature : String
  docstring : String
  parent : Option String
  calls : List String
  called_by : List String
deriving DecidableEq

/-- `(file_path, line, name)` — the identity triple of a symbol. -/
def symKey (s : Symbol) : String × Nat × String := (s.file_path, s.line, s.name)

/-- `full_name = f"{sym.parent}.{sym.name}" if sym.parent else sym.name`
(`symbol_indexer.py` line 617). -/
def Symbol.fullName (s : Symbol) : String :=
  match s.parent with
  | some p => p ++ "." ++ s.name
  | none => s.name

/-- `FileSymbols` dataclass (`symbol_indexer.py` lines 52-59). -/
structure FileSymbols where
  file_path : String
  language : String
  symbols : List Symbol
  imports : List String
  last_modified : ℚ
deriving DecidableEq

/-- `SymbolIndex` dataclass (`symbol_indexer.py` lines 62-81).  The
`defaultdict(list)` maps become total functions defaulting to `[]`; since
`_add_to_index` tests `callee in self.index.by_name` (key presence, which a
`defaultdict` keeps even for an emptied list), the set of created `by_name`
keys is tracked separately.  The `set` values of the call graphs become
duplicate-free insertion lists; a deleted `call_graph` key and an absent
key are both the empty edge set. -/
structure SymbolIndex where
  by_name : String → List Symbol
  by_name_keys : List String
  by_file : String → Option FileSymbols
  by_kind : String → List Symbol
  call_graph : String → List String
  reverse_call_graph : String → List String

def SymbolIndex.init : SymbolIndex :=
  { by_name := fun _ => [], by_name_keys := [], by_file := fun _ => none,
    by_kind := fun _ => [], call_graph := fun _ => [],
    reverse_call_graph := fun _ => [] }

/-- Pointwise update of a string-keyed map. -/
def updFn {β : Type} (f : String → β) (k : String) (v : β) : String → β :=
  fun x => if x = k then v else f x

/-- Python `set.add`: append if absent. -/
def insName (l : List String) (x : String) : List String :=
  if x ∈ l then l else l ++ [x]

/-- The body of the removal loop of `_add_to_index` (`symbol_indexer.py`
lines 610-619) for one old symbol: guarded `list.remove` from `by_name`
and `by_kind` (a no-op when absent, like `List.erase`), and deletion of the
symbol's qualified name from `call_graph`. -/
def removeSym (s : SymbolIndex) (sym : Symbol) : SymbolIndex :=
  { s with
    by_name := updFn s.by_name sym.name ((s.by_name sym.name).erase sym),
    by_kind := updFn s.by_kind sym.kind ((s.by_kind sym.kind).erase sym),
    call_graph := updFn s.call_graph sym.fullName [] }

/-- The insertion loop body of `_add_to_index` (lines 624-626):
`by_name[sym.name].append(sym)` (creating the key) and
`by_kind[sym.kind].append(sym)`. -/
def insertSym (s : SymbolIndex) (sym : Symbol) : SymbolIndex :=
  { s with
    by_name := updFn s.by_name sym.name (s.by_name sym.name ++ [sym]),
    by_name_keys := insName s.by_name_keys sym.name,
    by_kind := updFn s.by_kind sym.kind (s.by_kind sym.kind ++ [sym]) }

/-- One call edge (lines 632-635): inserted into both graphs only when the
callee is a known `by_name` key. -/
def addEdge (s : SymbolIndex) (caller callee : String) : SymbolIndex :=
  if callee ∈ s.by_name_keys then
    { s with
      call_graph := updFn s.call_graph caller (insName (s.call_graph caller) callee),
      reverse_call_graph :=
        updFn s.reverse_call_graph callee (insName (s.reverse_call_graph callee) caller) }
  else s

/-- All edges of one `call_map` entry. -/
def addEdges (s : SymbolIndex) (entry : String × List String) : SymbolIndex :=
  entry.2.foldl (fun st callee => addEdge st entry.1 callee) s

/-- The removal loop of `_add_to_index` (lines 608-619): runs only when the
file was already indexed. -/
def removePhase (s : SymbolIndex) (p : String) : SymbolIndex :=
  match s.by_file p with
  | some old => old.symbols.foldl removeSym s
  | none => s

/-- `SymbolIndexer._add_to_index` (`symbol_indexer.py` lines 606-635):
remove the file's old symbols, store the new `FileSymbols`, insert the new
symbols, then add the call-map edges. -/
def addToIndex (s : SymbolIndex) (fs : FileSymbols)
    (cm : List (String × List String)) : SymbolIndex :=
  let s1 := removePhase s fs.file_path
  let s2 := { s1 with by_file := updFn s1.by_file fs.file_path (some fs) }
  let s3 := fs.symbols.foldl insertSym s2
  cm.foldl addEdges s3

/-- A sequence of `index_file` updates applied to the empty index (the
parsing itself is external; each step hands the extracted `FileSymbols`
and call map to `_add_to_index`). -/
def runIndex (steps : List (FileSymbols × List (String × List String))) : SymbolIndex :=
  steps.foldl (fun s st => addToIndex s st.1 st.2) SymbolIndex.init

/-- The `deleted` branch of `FileWatcherService._handle_change`
(`file_watcher.py` lines 213-218): if the path is a `by_file` key, delete
only that entry. -/
def handleDeleted (s : SymbolIndex) (p : String) : SymbolIndex :=
  match s.by_file p with
  | some _ => { s with by_file := updFn s.by_file p none }
  | none => s

/-! ### Counting lemmas for the three phases of `_add_to_index` -/

theorem updFn_same {β : Type} (f : String → β) (k : String) (v : β) :
    updFn f k v k = v := by
  simp [updFn]

theorem updFn_other {β : Type} (f : String → β) (k : String) (v : β) (x : String)
    (h : x ≠ k) : updFn f k v x = f x := by
  simp [updFn, h]

theorem removeSym_by_name_count (s : SymbolIndex) (r : Symbol) (n : String) (sym : Symbol) :
    ((removeSym s r).by_name n).count sym =
      (s.by_name n).count sym - (if sym = r ∧ sym.name = n then 1 else 0) := by
  by_cases hn : n = r.name
  · subst hn
    have hb : (removeSym s r).by_name r.name = (s.by_name r.name).erase r := by
      simp [removeSym, updFn_same]
    rw [hb]
    by_cases hsr : sym = r
    · subst hsr
      rw [List.count_erase_self]
      simp
    · rw [List.count_erase_of_ne hsr]
      simp [hsr]
  · have hb : (removeSym s r).by_name n = s.by_name n := by
      simp [removeSym, updFn, hn]
    rw [hb]
    have hc : ¬(sym = r ∧ sym.name = n) := by
      rintro ⟨rfl, h2⟩
      exact hn h2.symm
    simp [hc]

theorem removeFold_by_name_count (rl : List Symbol) (s : SymbolIndex)
    (n : String) (sym : Symbol) :
    ((rl.foldl removeSym s).by_name n).count sym =
      (s.by_name n).count sym - (if sym.name = n then rl.count sym else 0) := by
  induction rl generalizing s with
  | nil => simp
  | cons r rs ih =>
      rw [List.foldl_cons, ih, removeSym_by_name_count, Nat.sub_sub]
      by_cases hname : sym.name = n
      · simp only [hname, if_true, and_true]
        rw [List.count_cons]
        by_cases hsr : sym = r
        · simp only [hsr, if_true, beq_self_eq_true]
          omega
        · simp only [hsr, if_false]
          have hbs : (r == sym) = false := beq_false_of_ne (fun hh => hsr hh.symm)
          simp only [hbs, Bool.false_eq_true, if_false]
          omega
      · simp [hname]

theorem removeSym_by_kind_count (s : SymbolIndex) (r : Symbol) (k : String) (sym : Symbol) :
    ((removeSym s r).by_kind k).count sym =
      (s.by_kind k).count sym - (if sym = r ∧ sym.kind = k then 1 else 0) := by
  by_cases hk : k = r.kind
  · subst hk
    have hb : (removeSym s r).by_kind r.kind = (s.by_kind r.kind).erase r := by
      simp [removeSym, updFn_same]
    rw [hb]
    by_cases hsr : sym = r
    · subst hsr
      rw [List.count_erase_self]
      simp
    · rw [List.count_erase_of_ne hsr]
      simp [hsr]
  · have hb : (removeSym s r).by_kind k = s.by_kind k := by
      simp [removeSym, updFn, hk]
    rw [hb]
    have hc : ¬(sym = r ∧ sym.kind = k) := by
      rintro ⟨rfl, h2⟩
      exact hk h2.symm
    simp [hc]

theorem removeFold_by_kind_count (rl : List Symbol) (s : SymbolIndex)
    (k : String) (sym : Symbol) :
    ((rl.foldl removeSym s).by_kind k).count sym =
      (s.by_kind k).count sym - (if sym.kind = k then rl.count sym else 0) := by
  induction rl generalizing s with
  | nil => simp
  | cons r rs ih =>
      rw [List.foldl_cons, ih, removeSym_by_kind_count, Nat.sub_sub]
      by_cases hkind : sym.kind = k
      · simp only [hkind, if_true, and_true]
        rw [List.count_cons]
        by_cases hsr : sym = r
        · simp only [hsr, if_true, beq_self_eq_true]
          omega
        · simp only [hsr, if_false]
          have hbs : (r == sym) = false := beq_false_of_ne (fun hh => hsr hh.symm)
          simp only [hbs, Bool.false_eq_true, if_false]
          omega
      · simp [hkind]

theorem removeFold_by_file (rl : List Symbol) (s : SymbolIndex) :
    (rl.foldl removeSym s).by_file = s.by_file := by
  induction rl generalizing s with
  | nil => rfl
  | cons r rs ih => rw [List.foldl_cons, ih]; rfl

theorem removeFold_keys (rl : List Symbol) (s : SymbolIndex) :
    (rl.foldl removeSym s).by_name_keys = s.by_name_keys := by
  induction rl generalizing s with
  | nil => rfl
  | cons r rs ih => rw [List.foldl_cons, ih]; rfl

theorem removeFold_reverse (rl : List Symbol) (s : SymbolIndex) :
    (rl.foldl removeSym s).reverse_call_graph = s.reverse_call_graph := by
  induction rl generalizing s with
  | nil => rfl
  | cons r rs ih => rw [List.foldl_cons, ih]; rfl

theorem removeFold_call_graph (rl : List Symbol) (s : SymbolIndex) (c : String) :
    (rl.foldl removeSym s).call_graph c = s.call_graph c ∨
      (rl.foldl removeSym s).call_graph c = [] := by
  induction rl generalizing s with
  | nil => exact Or.inl rfl
  | cons r rs ih =>
      rw [List.foldl_cons]
      rcases ih (removeSym s r) with h | h
      · rw [h]
        by_cases hc : c = r.fullName
        · subst hc
          refine Or.inr ?_
          simp [removeSym, updFn_same]
        · refine Or.inl ?_
          simp [removeSym, updFn, hc]
      · exact Or.inr h

theorem insertSym_by_name_count (s : SymbolIndex) (r : Symbol) (n : String) (sym : Symbol) :
    ((insertSym s r).by_name n).count sym =
      (s.by_name n).count sym + (if sym = r ∧ sym.name = n then 1 else 0) := by
  by_cases hn : n = r.name
  · subst hn
    have hb : (insertSym s r).by_name r.name = s.by_name r.name ++ [r] := by
      simp [insertSym, updFn_same]
    rw [hb, List.count_append]
    by_cases hsr : sym = r
    · subst hsr
      simp
    · simp [hsr, beq_false_of_ne hsr]
  · have hb : (insertSym s r).by_name n = s.by_name n := by
      simp [insertSym, updFn, hn]
    rw [hb]
    have hc : ¬(sym = r ∧ sym.name = n) := by
      rintro ⟨rfl, h2⟩
      exact hn h2.symm
    simp [hc]

theorem insertFold_by_name_count (il : List Symbol) (s : SymbolIndex)
    (n : String) (sym : Symbol) :
    ((il.foldl insertSym s).by_name n).count sym =
      (s.by_name n).count sym + (if sym.name = n then il.count sym else 0) := by
  induction il generalizing s with
  | nil => simp
  | cons r rs ih =>
      rw [List.foldl_cons, ih, insertSym_by_name_count]
      by_cases hname : sym.name = n
      · simp only [hname, if_true, and_true]
        rw [List.count_cons]
        by_cases hsr : sym = r
        · simp only [hsr, if_true, beq_self_eq_true]
          omega
        · simp only [hsr, if_false]
          simp only [beq_false_of_ne (fun hh => hsr hh.symm), Bool.false_eq_true, if_false]
          omega
      · simp [hname]

theorem insertSym_by_kind_count (s : SymbolIndex) (r : Symbol) (k : String) (sym : Symbol) :
    ((insertSym s r).by_kind k).count sym =
      (s.by_kind k).count sym + (if sym = r ∧ sym.kind = k then 1 else 0) := by
  by_cases hk : k = r.kind
  · subst hk
    have hb : (insertSym s r).by_kind r.kind = s.by_kind r.kind ++ [r] := by
      simp [insertSym, updFn_same]
    rw [hb, List.count_append]
    by_cases hsr : sym = r
    · subst hsr
      simp
    · simp [hsr, beq_false_of_ne hsr]
  · have hb : (insertSym s r).by_kind k = s.by_kind k := by
      simp [insertSym, updFn, hk]
    rw [hb]
    have hc : ¬(sym = r ∧ sym.kind = k) := by
      rintro ⟨rfl, h2⟩
      exact hk h2.symm
    simp [hc]

theorem insertFold_by_kind_count (il : List Symbol) (s : SymbolIndex)
    (k : String) (sym : Symbol) :
    ((il.foldl insertSym s).by_kind k).count sym =
      (s.by_kind k).count sym + (if sym.kind = k then il.count sym else 0) := by
  induction il generalizing s with
  | nil => simp
  | cons r rs ih =>
      rw [List.foldl_cons, ih, insertSym_by_kind_count]
      by_cases hkind : sym.kind = k
      · simp only [hkind, if_true, and_true]
        rw [List.count_cons]
        by_cases hsr : sym = r
        · simp only [hsr, if_true, beq_self_eq_true]
          omega
        · simp only [hsr, if_false]
          simp only [beq_false_of_ne (fun hh => hsr hh.symm), Bool.false_eq_true, if_false]
          omega
      · simp [hkind]

theorem insertFold_by_file (il : List Symbol) (s : SymbolIndex) :
    (il.foldl insertSym s).by_file = s.by_file := by
  induction il generalizing s with
  | nil => rfl
  | cons r rs ih => rw [List.foldl_cons, ih]; rfl

theorem insertFold_call_graph (il : List Symbol) (s : SymbolIndex) :
    (il.foldl insertSym s).call_graph = s.call_graph := by
  induction il generalizing s with
  | nil => rfl
  | cons r rs ih => rw [List.foldl_cons, ih]; rfl

theorem insertFold_reverse (il : List Symbol) (s : SymbolIndex) :
    (il.foldl insertSym s).reverse_call_graph = s.reverse_call_graph := by
  induction il generalizing s with
  | nil => rfl
  | cons r rs ih => rw [List.foldl_cons, ih]; rfl

theorem addEdge_by_name (s : SymbolIndex) (c e : String) :
    (addEdge s c e).by_name = s.by_name ∧
    (addEdge s c e).by_kind = s.by_kind ∧
    (addEdge s c e).by_file = s.by_file ∧
    (addEdge s c e).by_name_keys = s.by_name_keys := by
  unfold addEdge
  split
  · exact ⟨rfl, rfl, rfl, rfl⟩
  · exact ⟨rfl, rfl, rfl, rfl⟩

theorem edgeInner_proj (cs : List String) (c : String) (s : SymbolIndex) :
    (cs.foldl (fun st callee => addEdge st c callee) s).by_name = s.by_name ∧
    (cs.foldl (fun st callee => addEdge st c callee) s).by_kind = s.by_kind ∧
    (cs.foldl (fun st callee => addEdge st c callee) s).by_file = s.by_file ∧
    (cs.foldl (fun st callee => addEdge st c callee) s).by_name_keys = s.by_name_keys := by
  induction cs generalizing s with
  | nil => exact ⟨rfl, rfl, rfl, rfl⟩
  | cons e es ih =>
      rw [List.foldl_cons]
      rcases ih (addEdge s c e) with ⟨h1, h2, h3, h4⟩
      rcases addEdge_by_name s c e with ⟨g1, g2, g3, g4⟩
      exact ⟨h1.trans g1, h2.trans g2, h3.trans g3, h4.trans g4⟩

theorem edgesFold_proj (cm : List (String × List String)) (s : SymbolIndex) :
    (cm.foldl addEdges s).by_name = s.by_name ∧
    (cm.foldl addEdges s).by_kind = s.by_kind ∧
    (cm.foldl addEdges s).by_file = s.by_file ∧
    (cm.foldl addEdges s).by_name_keys = s.by_name_keys := by
  induction cm generalizing s with
  | nil => exact ⟨rfl, rfl, rfl, rfl⟩
  | cons entry rest ih =>
      rw [List.foldl_cons]
      rcases ih (addEdges s entry) with ⟨h1, h2, h3, h4⟩
      rcases edgeInner_proj entry.2 entry.1 s with ⟨g1, g2, g3, g4⟩
      exact ⟨h1.trans g1, h2.trans g2, h3.trans g3, h4.trans g4⟩

/-! ### The index well-formedness invariant (C2) -/

/-- How often `sym` occurs in the `FileSymbols` bundle of its own file. -/
def fileCount (s : SymbolIndex) (sym : Symbol) : Nat :=
  match s.by_file sym.file_path with
  | some fs => fs.symbols.count sym
  | none => 0

/-- Well-formedness of a `SymbolIndex`, as maintained by `_add_to_index`:
each symbol occurs in its name bucket (and kind bucket) exactly as often as
in its file's bundle, and every stored bundle is path-coherent with
duplicate-free `(file_path, line, name)` triples. -/
def WF (s : SymbolIndex) : Prop :=
  (∀ n sym, (s.by_name n).count sym = if sym.name = n then fileCount s sym else 0) ∧
  (∀ k sym, (s.by_kind k).count sym = if sym.kind = k then fileCount s sym else 0) ∧
  (∀ p fs, s.by_file p = some fs →
    fs.file_path = p ∧ (∀ sym ∈ fs.symbols, sym.file_path = p) ∧
    (fs.symbols.map symKey).Nodup)

theorem wf_init : WF SymbolIndex.init := by
  refine ⟨?_, ?_, ?_⟩
  · intro n sym
    simp [SymbolIndex.init, fileCount]
  · intro k sym
    simp [SymbolIndex.init, fileCount]
  · intro p fs h
    simp [SymbolIndex.init] at h

theorem removePhase_by_name_count (s : SymbolIndex) (p : String) (n : String) (sym : Symbol) :
    ((removePhase s p).by_name n).count sym =
      (s.by_name n).count sym -
        (if sym.name = n then
          (match s.by_file p with
           | some old => old.symbols.count sym
           | none => 0) else 0) := by
  unfold removePhase
  cases hb : s.by_file p with
  | none => simp
  | some old => rw [removeFold_by_name_count]

theorem removePhase_by_kind_count (s : SymbolIndex) (p : String) (k : String) (sym : Symbol) :
    ((removePhase s p).by_kind k).count sym =
      (s.by_kind k).count sym -
        (if sym.kind = k then
          (match s.by_file p with
           | some old => old.symbols.count sym
           | none => 0) else 0) := by
  unfold removePhase
  cases hb : s.by_file p with
  | none => simp
  | some old => rw [removeFold_by_kind_count]

theorem removePhase_by_file (s : SymbolIndex) (p : String) :
    (removePhase s p).by_file = s.by_file := by
  unfold removePhase
  cases hb : s.by_file p with
  | none => rfl
  | some old => exact removeFold_by_file old.symbols s

/-- The final `by_file` map of `_add_to_index`: only the indexed path is
replaced. -/
theorem addToIndex_by_file (s : SymbolIndex) (fs : FileSymbols)
    (cm : List (String × List String)) :
    (addToIndex s fs cm).by_file = updFn s.by_file fs.file_path (some fs) := by
  show (cm.foldl addEdges _).by_file = _
  rw [(edgesFold_proj cm _).2.2.1, insertFold_by_file]
  show updFn (removePhase s fs.file_path).by_file fs.file_path (some fs) = _
  rw [removePhase_by_file]

/-- The final `by_name` count through all three phases. -/
theorem addToIndex_by_name_count (s : SymbolIndex) (fs : FileSymbols)
    (cm : List (String × List String)) (n : String) (sym : Symbol) :
    ((addToIndex s fs cm).by_name n).count sym =
      (s.by_name n).count sym -
        (if sym.name = n then
          (match s.by_file fs.file_path with
           | some old => old.symbols.count sym
           | none => 0) else 0) +
      (if sym.name = n then fs.symbols.count sym else 0) := by
  show ((cm.foldl addEdges _).by_name n).count sym = _
  rw [(edgesFold_proj cm _).1, insertFold_by_name_count]
  show ((removePhase s fs.file_path).by_name n).count sym + _ = _
  rw [removePhase_by_name_count]

/-- The final `by_kind` count through all three phases. -/
theorem addToIndex_by_kind_count (s : SymbolIndex) (fs : FileSymbols)
    (cm : List (String × List String)) (k : String) (sym : Symbol) :
    ((addToIndex s fs cm).by_kind k).count sym =
      (s.by_kind k).count sym -
        (if sym.kind = k then
          (match s.by_file fs.file_path with
           | some old => old.symbols.count sym
           | none => 0) else 0) +
      (if sym.kind = k then fs.symbols.count sym else 0) := by
  show ((cm.foldl addEdges _).by_kind k).count sym = _
  rw [(edgesFold_proj cm _).2.1, insertFold_by_kind_count]
  show ((removePhase s fs.file_path).by_kind k).count sym + _ = _
  rw [removePhase_by_kind_count]

/-- The file bundle count after `_add_to_index`. -/
theorem addToIndex_fileCount (s : SymbolIndex) (fs : FileSymbols)
    (cm : List (String × List String)) (sym : Symbol) :
    fileCount (addToIndex s fs cm) sym =
      (if sym.file_path = fs.file_path then fs.symbols.count sym else fileCount s sym) := by
  unfold fileCount
  rw [addToIndex_by_file]
  by_cases hf : sym.file_path = fs.file_path
  · rw [hf, updFn_same]
    simp [hf]
  · rw [updFn_other _ _ _ _ hf]
    simp [hf]

/-- `_add_to_index` preserves well-formedness, provided the new bundle is
path-coherent and free of duplicate identity triples (which the language
adapters produce, each AST node yielding one symbol at its own line). -/
theorem wf_addToIndex (s : SymbolIndex) (fs : FileSymbols)
    (cm : List (String × List String)) (hwf : WF s)
    (hpath : ∀ sym ∈ fs.symbols, sym.file_path = fs.file_path)
    (hnodup : (fs.symbols.map symKey).Nodup) :
    WF (addToIndex s fs cm) := by
  rcases hwf with ⟨hname, hkind, hfile⟩
  refine ⟨?_, ?_, ?_⟩
  · intro n sym
    rw [addToIndex_by_name_count, hname n sym, addToIndex_fileCount]
    by_cases hf : sym.file_path = fs.file_path
    · simp only [hf, if_true]
      cases hb : s.by_file fs.file_path with
      | none =>
          have h0 : fileCount s sym = 0 := by
            unfold fileCount
            rw [hf, hb]
          rw [h0]
          by_cases hn2 : sym.name = n <;> simp [hn2]
      | some old =>
          have h0 : fileCount s sym = old.symbols.count sym := by
            unfold fileCount
            rw [hf, hb]
          rw [h0]
          by_cases hn2 : sym.name = n <;> simp [hn2]
    · simp only [hf, if_false]
      have hins : fs.symbols.count sym = 0 :=
        List.count_eq_zero.mpr (fun hmem => hf (hpath sym hmem))
      cases hb : s.by_file fs.file_path with
      | none => simp [hins]
      | some old =>
          have hrem : old.symbols.count sym = 0 := by
            rcases hfile fs.file_path old hb with ⟨hfp, hall, _⟩
            exact List.count_eq_zero.mpr (fun hmem => hf (hall sym hmem))
          simp [hins, hrem]
  · intro k sym
    rw [addToIndex_by_kind_count, hkind k sym, addToIndex_fileCount]
    by_cases hf : sym.file_path = fs.file_path
    · simp only [hf, if_true]
      cases hb : s.by_file fs.file_path with
      | none =>
          have h0 : fileCount s sym = 0 := by
            unfold fileCount
            rw [hf, hb]
          rw [h0]
          by_cases hn2 : sym.kind = k <;> simp [hn2]
      | some old =>
          have h0 : fileCount s sym = old.symbols.count sym := by
            unfold fileCount
            rw [hf, hb]
          rw [h0]
          by_cases hn2 : sym.kind = k <;> simp [hn2]
    · simp only [hf, if_false]
      have hins : fs.symbols.count sym = 0 :=
        List.count_eq_zero.mpr (fun hmem => hf (hpath sym hmem))
      cases hb : s.by_file fs.file_path with
      | none => simp [hins]
      | some old =>
          have hrem : old.symbols.count sym = 0 := by
            rcases hfile fs.file_path old hb with ⟨hfp, hall, _⟩
            exact List.count_eq_zero.mpr (fun hmem => hf (hall sym hmem))
          simp [hins, hrem]
  · intro p fs' h
    rw [addToIndex_by_file] at h
    by_cases hp : p = fs.file_path
    · subst hp
      rw [updFn_same] at h
      cases h
      exact ⟨rfl, hpath, hnodup⟩
    · rw [updFn_other _ _ _ _ hp] at h
      exact hfile p fs' h

/-- C2: after re-indexing path `p` on a well-formed index, no symbol of `p`
other than the freshly extracted ones remains in `by_name` or `by_kind`,
and no `(file_path, line, name)` identity triple occurs twice across the
index.  (`wf_init` and `wf_addToIndex` show every index reachable through
`_add_to_index` satisfies the `WF` hypothesis.) -/
theorem C2_reindex_atomicity (s : SymbolIndex) (fs : FileSymbols)
    (cm : List (String × List String)) (hwf : WF s)
    (hpath : ∀ sym ∈ fs.symbols, sym.file_path = fs.file_path)
    (hnodup : (fs.symbols.map symKey).Nodup) :
    (∀ n sym, sym ∈ (addToIndex s fs cm).by_name n →
      sym.file_path = fs.file_path → sym ∈ fs.symbols) ∧
    (∀ k sym, sym ∈ (addToIndex s fs cm).by_kind k →
      sym.file_path = fs.file_path → sym ∈ fs.symbols) ∧
    (∀ n1 n2 sym1 sym2, sym1 ∈ (addToIndex s fs cm).by_name n1 →
      sym2 ∈ (addToIndex s fs cm).by_name n2 →
      symKey sym1 = symKey sym2 → sym1 = sym2) ∧
    (∀ n sym, ((addToIndex s fs cm).by_name n).count sym ≤ 1) := by
  have hpost := wf_addToIndex s fs cm hwf hpath hnodup
  have hmemfile : ∀ n sym, sym ∈ (addToIndex s fs cm).by_name n →
      ∃ fs', (addToIndex s fs cm).by_file sym.file_path = some fs' ∧ sym ∈ fs'.symbols := by
    intro n sym hmem
    have hpos : 0 < ((addToIndex s fs cm).by_name n).count sym :=
      List.count_pos_iff.mpr hmem
    rw [hpost.1 n sym] at hpos
    by_cases hn : sym.name = n
    · rw [if_pos hn] at hpos
      unfold fileCount at hpos
      cases hb : (addToIndex s fs cm).by_file sym.file_path with
      | none =>
          rw [hb] at hpos
          simp at hpos
      | some fs' =>
          rw [hb] at hpos
          exact ⟨fs', rfl, List.count_pos_iff.mp hpos⟩
    · rw [if_neg hn] at hpos
      simp at hpos
  have hmemkindfile : ∀ k sym, sym ∈ (addToIndex s fs cm).by_kind k →
      ∃ fs', (addToIndex s fs cm).by_file sym.file_path = some fs' ∧ sym ∈ fs'.symbols := by
    intro k sym hmem
    have hpos : 0 < ((addToIndex s fs cm).by_kind k).count sym :=
      List.count_pos_iff.mpr hmem
    rw [hpost.2.1 k sym] at hpos
    by_cases hk : sym.kind = k
    · rw [if_pos hk] at hpos
      unfold fileCount at hpos
      cases hb : (addToIndex s fs cm).by_file sym.file_path with
      | none =>
          rw [hb] at hpos
          simp at hpos
      | some fs' =>
          rw [hb] at hpos
          exact ⟨fs', rfl, List.count_pos_iff.mp hpos⟩
    · rw [if_neg hk] at hpos
      simp at hpos
  have hnewfile : (addToIndex s fs cm).by_file fs.file_path = some fs := by
    rw [addToIndex_by_file, updFn_same]
  refine ⟨?_, ?_, ?_, ?_⟩
  · intro n sym hmem hp
    rcases hmemfile n sym hmem with ⟨fs', hb, hm⟩
    rw [hp, hnewfile] at hb
    cases hb
    exact hm
  · intro k sym hmem hp
    rcases hmemkindfile k sym hmem with ⟨fs', hb, hm⟩
    rw [hp, hnewfile] at hb
    cases hb
    exact hm
  · intro n1 n2 sym1 sym2 h1 h2 hkey
    rcases hmemfile n1 sym1 h1 with ⟨fs1, hb1, hm1⟩
    rcases hmemfile n2 sym2 h2 with ⟨fs2, hb2, hm2⟩
    have hp12 : sym1.file_path = sym2.file_path := congrArg Prod.fst hkey
    rw [hp12] at hb1
    rw [hb2] at hb1
    cases hb1
    rcases hpost.2.2 sym2.file_path fs1 hb2 with ⟨_, _, hnd⟩
    exact List.inj_on_of_nodup_map hnd hm1 hm2 hkey
  · intro n sym
    rw [hpost.1 n sym]
    by_cases hn : sym.name = n
    · rw [if_pos hn]
      unfold fileCount
      cases hb : (addToIndex s fs cm).by_file sym.file_path with
      | none => exact Nat.zero_le 1
      | some fs' =>
          rcases hpost.2.2 sym.file_path fs' hb with ⟨_, _, hnd⟩
          exact le_trans (List.count_le_count_map fs'.symbols symKey sym)
            (List.nodup_iff_count_le_one.mp hnd (symKey sym))
    · rw [if_neg hn]
      exact Nat.zero_le 1

/-! ### Concrete index states (two files, one call edge) -/

/-- `def g(): ...` in `q.py`. -/
def symG : Symbol :=
  { name := "g", kind := "function", file_path := "q.py", line := 1, end_line := 2,
    column := 0, signature := "def g()", docstring := "", parent := none,
    calls := [], called_by := [] }

def fsQ : FileSymbols :=
  { file_path := "q.py", language := "python", symbols := [symG], imports := [],
    last_modified := 0 }

def cmQ : List (String × List String) := [("g", [])]

/-- `def f(): g()` in `p.py`. -/
def symF : Symbol :=
  { name := "f", kind := "function", file_path := "p.py", line := 1, end_line := 3,
    column := 0, signature := "def f()", docstring := "", parent := none,
    calls := ["g"], called_by := [] }

def fsP : FileSymbols :=
  { file_path := "p.py", language := "python", symbols := [symF], imports := [],
    last_modified := 0 }

def cmP : List (String × List String) := [("f", ["g"])]

/-- `p.py` re-indexed after `f` was deleted from it. -/
def fsP2 : FileSymbols :=
  { file_path := "p.py", language := "python", symbols := [], imports := [],
    last_modified := 0 }

def idxState1 : SymbolIndex := addToIndex SymbolIndex.init fsQ cmQ

def idxState2 : SymbolIndex := addToIndex idxState1 fsP cmP

/-- C2 witness: the invariant instantiated on a concrete two-file index
that re-indexes `p.py`. -/
theorem C2_witness :
    WF idxState2 ∧ ((addToIndex idxState2 fsP2 []).by_name "f").count symF ≤ 1 := by
  have h1 : WF idxState1 :=
    wf_addToIndex SymbolIndex.init fsQ cmQ wf_init (by decide) (by decide)
  have h2 : WF idxState2 :=
    wf_addToIndex idxState1 fsP cmP h1 (by decide) (by decide)
  exact ⟨h2,
    (C2_reindex_atomicity idxState2 fsP2 [] h2 (by decide) (by decide)).2.2.2 "f" symF⟩

/-! ### C3 — call-graph symmetry -/

/-- One direction of call-graph symmetry: every forward edge has its
reverse edge. -/
def CGInv (s : SymbolIndex) : Prop :=
  ∀ c e, e ∈ s.call_graph c → c ∈ s.reverse_call_graph e

theorem cginv_init : CGInv SymbolIndex.init := by
  intro c e h
  simp [SymbolIndex.init] at h

theorem mem_insName (l : List String) (x y : String) (h : y ∈ l) : y ∈ insName l x := by
  unfold insName
  split
  · exact h
  · exact List.mem_append_left _ h

theorem self_mem_insName (l : List String) (x : String) : x ∈ insName l x := by
  unfold insName
  split
  · assumption
  · simp

theorem mem_insName_iff (l : List String) (x y : String) :
    y ∈ insName l x ↔ (y ∈ l ∨ y = x) := by
  unfold insName
  split
  · rename_i hx
    constructor
    · exact fun h => Or.inl h
    · rintro (h | rfl)
      · exact h
      · exact hx
  · simp [List.mem_append]

theorem cginv_addEdge (s : SymbolIndex) (c e : String) (h : CGInv s) :
    CGInv (addEdge s c e) := by
  intro c' e' hmem
  unfold addEdge at hmem ⊢
  by_cases hk : e ∈ s.by_name_keys
  · rw [if_pos hk] at hmem ⊢
    dsimp only at hmem ⊢
    unfold updFn at hmem ⊢
    have hforward : e' ∈ s.call_graph c' ∨ (c' = c ∧ e' = e) := by
      by_cases hc : c' = c
      · rw [if_pos hc] at hmem
        rcases (mem_insName_iff _ _ _).mp hmem with hin | hxe
        · left
          rw [hc]
          exact hin
        · right
          exact ⟨hc, hxe⟩
      · rw [if_neg hc] at hmem
        left
        exact hmem
    rcases hforward with hin | ⟨hc, he⟩
    · have hrev := h c' e' hin
      by_cases hee : e' = e
      · rw [if_pos hee]
        rw [hee] at hrev
        exact mem_insName _ c c' hrev
      · rw [if_neg hee]
        exact hrev
    · rw [if_pos he, hc]
      exact self_mem_insName _ c
  · rw [if_neg hk] at hmem ⊢
    exact h c' e' hmem

theorem cginv_edgeInner (cs : List String) (c : String) (s : SymbolIndex) (h : CGInv s) :
    CGInv (cs.foldl (fun st callee => addEdge st c callee) s) := by
  induction cs generalizing s with
  | nil => exact h
  | cons e es ih =>
      rw [List.foldl_cons]
      exact ih _ (cginv_addEdge s c e h)

theorem cginv_edgesFold (cm : List (String × List String)) (s : SymbolIndex)
    (h : CGInv s) : CGInv (cm.foldl addEdges s) := by
  induction cm generalizing s with
  | nil => exact h
  | cons entry rest ih =>
      rw [List.foldl_cons]
      exact ih _ (cginv_edgeInner entry.2 entry.1 s h)

theorem cginv_removePhase (s : SymbolIndex) (p : String) (h : CGInv s) :
    CGInv (removePhase s p) := by
  cases hb : s.by_file p with
  | none =>
      have hr : removePhase s p = s := by
        unfold removePhase
        rw [hb]
      rw [hr]
      exact h
  | some old =>
      have hr : removePhase s p = old.symbols.foldl removeSym s := by
        unfold removePhase
        rw [hb]
      rw [hr]
      intro c e hmem
      rw [removeFold_reverse]
      rcases removeFold_call_graph old.symbols s c with hcg | hcg
      · rw [hcg] at hmem
        exact h c e hmem
      · rw [hcg] at hmem
        exact absurd hmem (List.not_mem_nil e)

theorem cginv_addToIndex (s : SymbolIndex) (fs : FileSymbols)
    (cm : List (String × List String)) (h : CGInv s) :
    CGInv (addToIndex s fs cm) := by
  have h1 := cginv_removePhase s fs.file_path h
  have h3 : CGInv (fs.symbols.foldl insertSym
      { removePhase s fs.file_path with
        by_file := updFn (removePhase s fs.file_path).by_file fs.file_path (some fs) }) := by
    intro c e hmem
    rw [insertFold_call_graph] at hmem
    rw [insertFold_reverse]
    exact h1 c e hmem
  exact cginv_edgesFold cm _ h3

theorem cginv_runAux (steps : List (FileSymbols × List (String × List String)))
    (s : SymbolIndex) (h : CGInv s) :
    CGInv (steps.foldl (fun s st => addToIndex s st.1 st.2) s) := by
  induction steps generalizing s with
  | nil => exact h
  | cons st rest ih =>
      rw [List.foldl_cons]
      exact ih _ (cginv_addToIndex s st.1 st.2 h)

/-- C3 (amended): in every index state reachable by a sequence of
`index_file` calls, the call graph is half-symmetric: a forward edge
`(c, e)` of `call_graph` always has `c ∈ reverse_call_graph[e]`.  The
converse inclusion and the claim that every referenced callee has a
non-empty `by_name` entry are false (see the counterexample): re-indexing
deletes only `call_graph` keys, never `reverse_call_graph` entries. -/
theorem C3_call_graph_half_symmetry
    (steps : List (FileSymbols × List (String × List String))) (c e : String)
    (h : e ∈ (runIndex steps).call_graph c) :
    c ∈ (runIndex steps).reverse_call_graph e :=
  cginv_runAux steps SymbolIndex.init cginv_init c e h

/-- C3 counterexample: index `q.py` (defines `g`), then `p.py` (`f` calls
`g`), then re-index `p.py` with `f` deleted.  The reverse call graph still
records `f` as a caller of `g`, but the forward edge is gone — the claimed
two-way symmetry is false. -/
theorem C3_counterexample :
    "f" ∈ (runIndex [(fsQ, cmQ), (fsP, cmP), (fsP2, [])]).reverse_call_graph "g" ∧
    "g" ∉ (runIndex [(fsQ, cmQ), (fsP, cmP), (fsP2, [])]).call_graph "f" := by
  decide

/-- C3 witness: a concrete reachable state with a live edge on which the
half-symmetry theorem is instantiated. -/
theorem C3_witness :
    "g" ∈ (runIndex [(fsQ, cmQ), (fsP, cmP)]).call_graph "f" ∧
    "f" ∈ (runIndex [(fsQ, cmQ), (fsP, cmP)]).reverse_call_graph "g" :=
  ⟨by decide, C3_call_graph_half_symmetry [(fsQ, cmQ), (fsP, cmP)] "f" "g" (by decide)⟩

/-! ### C4 — the watcher's `deleted` handler -/

/-- C4: the `deleted` branch of `_handle_change` removes only the
`by_file` entry.  On the concrete reachable index holding `p.py` (where
`f` calls `g`), after handling a `deleted` event for `p.py` the stale
symbol `f` is still present in `by_name` and `by_kind`, and both call-graph
edges of caller `f` survive — contradicting the specified removal of "the
file's FileSymbols and all derived entries". -/
theorem C4_deleted_keeps_derived_entries :
    (handleDeleted (runIndex [(fsQ, cmQ), (fsP, cmP)]) "p.py").by_file "p.py" = none ∧
    symF ∈ (handleDeleted (runIndex [(fsQ, cmQ), (fsP, cmP)]) "p.py").by_name "f" ∧
    symF ∈ (handleDeleted (runIndex [(fsQ, cmQ), (fsP, cmP)]) "p.py").by_kind "function" ∧
    "g" ∈ (handleDeleted (runIndex [(fsQ, cmQ), (fsP, cmP)]) "p.py").call_graph "f" ∧
    "f" ∈ (handleDeleted (runIndex [(fsQ, cmQ), (fsP, cmP)]) "p.py").reverse_call_graph "g" := by
  decide

/-! ### Context agent: `get_symbol_at_cursor` (`context_agent.py` lines 276-294) -/

/-- `SymbolInfo` TypedDict (`context_agent.py` lines 27-35). -/
structure SymbolInfo where
  name : String
  kind : String
  file_path : String
  line : Nat
  signature : String
  docstring : String
deriving DecidableEq

/-- `symbol_to_info` (`context_agent.py` lines 264-273). -/
def symbol_to_info (s : Symbol) : SymbolInfo :=
  { name := s.name, kind := s.kind, file_path := s.file_path, line := s.line,
    signature := s.signature, docstring := s.docstring }

/-- One pass of the nearest-symbol loop (`context_agent.py` lines 289-292):
keep the symbol at or above the cursor with the greatest line, first one
winning ties. -/
def nearestStep (c : Nat) (acc : Option Symbol) (sym : Symbol) : Option Symbol :=
  if sym.line ≤ c then
    match acc with
    | none => some sym
    | some n => if n.line < sym.line then some sym else acc
  else acc

/-- `get_symbol_at_cursor` (`context_agent.py` lines 276-294): the first
listed symbol whose `[line, end_line]` span contains the cursor, else the
nearest symbol above the cursor. -/
def get_symbol_at_cursor (by_file : String → Option FileSymbols) (p : String)
    (c : Nat) : Option SymbolInfo :=
  match by_file p with
  | none => none
  | some fs =>
      match fs.symbols.find? (fun s => decide (s.line ≤ c) && decide (c ≤ s.end_line)) with
      | some s => some (symbol_to_info s)
      | none =>
          match fs.symbols.foldl (nearestStep c) none with
          | some n => some (symbol_to_info n)
          | none => none

theorem nearestStep_spec (c : Nat) (acc : Option Symbol) (s : Symbol) :
    (s.line ≤ c ∧ acc = none ∧ nearestStep c acc s = some s) ∨
    (∃ m, s.line ≤ c ∧ acc = some m ∧ m.line < s.line ∧ nearestStep c acc s = some s) ∨
    (∃ m, s.line ≤ c ∧ acc = some m ∧ ¬m.line < s.line ∧ nearestStep c acc s = some m) ∨
    (¬s.line ≤ c ∧ nearestStep c acc s = acc) := by
  unfold nearestStep
  by_cases hsl : s.line ≤ c
  · rw [if_pos hsl]
    cases acc with
    | none => exact Or.inl ⟨hsl, rfl, rfl⟩
    | some m =>
        by_cases hlt : m.line < s.line
        · refine Or.inr (Or.inl ⟨m, hsl, rfl, hlt, ?_⟩)
          dsimp only
          rw [if_pos hlt]
        · refine Or.inr (Or.inr (Or.inl ⟨m, hsl, rfl, hlt, ?_⟩))
          dsimp only
          rw [if_neg hlt]
  · rw [if_neg hsl]
    exact Or.inr (Or.inr (Or.inr ⟨hsl, rfl⟩))

theorem nearestFold_spec_aux (c : Nat) (l : List Symbol) (acc : Option Symbol) :
    (l.foldl (nearestStep c) acc = none → acc = none ∧ ∀ s ∈ l, ¬s.line ≤ c) ∧
    (∀ n, l.foldl (nearestStep c) acc = some n →
      ((n ∈ l ∧ n.line ≤ c) ∨ acc = some n) ∧
      (∀ t ∈ l, t.line ≤ c → t.line ≤ n.line) ∧
      (∀ m, acc = some m → m.line ≤ n.line)) := by
  induction l generalizing acc with
  | nil =>
      refine ⟨fun h => ⟨h, by simp⟩, fun n h => ⟨Or.inr h, by simp, ?_⟩⟩
      intro m hm
      rw [List.foldl_nil] at h
      rw [h] at hm
      cases hm
      exact le_refl _
  | cons s rest ih =>
      rcases nearestStep_spec c acc s with
        ⟨hsl, hacc, he⟩ | ⟨m, hsl, hacc, hlt, he⟩ | ⟨m, hsl, hacc, hlt, he⟩ | ⟨hsl, he⟩
      all_goals rw [List.foldl_cons, he] at *
      · subst hacc
        constructor
        · intro h
          rcases ((ih (some s)).1 h) with ⟨hbad, _⟩
          cases hbad
        · intro n h
          rcases (ih (some s)).2 n h with ⟨hfst, hall, hmono⟩
          refine ⟨?_, ?_, ?_⟩
          · rcases hfst with ⟨hmem, hle⟩ | hs
            · exact Or.inl ⟨List.mem_cons_of_mem s hmem, hle⟩
            · cases hs
              exact Or.inl ⟨List.mem_cons_self s rest, hsl⟩
          · intro t ht htc
            rcases List.mem_cons.mp ht with h1 | h1
            · subst h1
              exact hmono t rfl
            · exact hall t h1 htc
          · intro m' hm'
            cases hm'
      · subst hacc
        constructor
        · intro h
          rcases ((ih (some s)).1 h) with ⟨hbad, _⟩
          cases hbad
        · intro n h
          rcases (ih (some s)).2 n h with ⟨hfst, hall, hmono⟩
          refine ⟨?_, ?_, ?_⟩
          · rcases hfst with ⟨hmem, hle⟩ | hs
            · exact Or.inl ⟨List.mem_cons_of_mem s hmem, hle⟩
            · cases hs
              exact Or.inl ⟨List.mem_cons_self s rest, hsl⟩
          · intro t ht htc
            rcases List.mem_cons.mp ht with h1 | h1
            · subst h1
              exact hmono t rfl
            · exact hall t h1 htc
          · intro m' hm'
            cases hm'
            have := hmono s rfl
            omega
      · subst hacc
        constructor
        · intro h
          rcases ((ih (some m)).1 h) with ⟨hbad, _⟩
          cases hbad
        · intro n h
          rcases (ih (some m)).2 n h with ⟨hfst, hall, hmono⟩
          refine ⟨?_, ?_, ?_⟩
          · rcases hfst with ⟨hmem, hle⟩ | hs
            · exact Or.inl ⟨List.mem_cons_of_mem s hmem, hle⟩
            · exact Or.inr hs
          · intro t ht htc
            rcases List.mem_cons.mp ht with h1 | h1
            · subst h1
              have := hmono m rfl
              omega
            · exact hall t h1 htc
          · intro m' hm'
            cases hm'
            exact hmono m rfl
      · constructor
        · intro h
          rcases (ih acc).1 h with ⟨hacc0, hrest⟩
          refine ⟨hacc0, ?_⟩
          intro t ht
          rcases List.mem_cons.mp ht with h1 | h1
          · subst h1
            exact hsl
          · exact hrest t h1
        · intro n h
          rcases (ih acc).2 n h with ⟨hfst, hall, hmono⟩
          refine ⟨?_, ?_, ?_⟩
          · rcases hfst with ⟨hmem, hle⟩ | hs
            · exact Or.inl ⟨List.mem_cons_of_mem s hmem, hle⟩
            · exact Or.inr hs
          · intro t ht htc
            rcases List.mem_cons.mp ht with h1 | h1
            · subst h1
              exact absurd htc hsl
            · exact hall t h1 htc
          · exact hmono

/-- C8 (amended): `get_symbol_at_cursor` returns the FIRST symbol in the
file's list whose `[line, end_line]` span contains the cursor line (for
the Python extractor a class precedes its methods, so this is the
outermost containing symbol, not the innermost); when no span contains the
cursor it returns the symbol with the greatest starting line at or above
the cursor; and it is absent exactly when the file is unindexed or no
symbol starts at or before the cursor. -/
theorem C8_symbol_at_cursor_amended (idx : String → Option FileSymbols)
    (p : String) (c : Nat) :
    (idx p = none → get_symbol_at_cursor idx p c = none) ∧
    (∀ fs, idx p = some fs →
      (∀ s, fs.symbols.find? (fun t => decide (t.line ≤ c) && decide (c ≤ t.end_line)) =
          some s →
        get_symbol_at_cursor idx p c = some (symbol_to_info s) ∧
        s ∈ fs.symbols ∧ s.line ≤ c ∧ c ≤ s.end_line) ∧
      (fs.symbols.find? (fun t => decide (t.line ≤ c) && decide (c ≤ t.end_line)) = none →
        (∃ s ∈ fs.symbols, s.line ≤ c ∧
          (∀ t ∈ fs.symbols, t.line ≤ c → t.line ≤ s.line) ∧
          get_symbol_at_cursor idx p c = some (symbol_to_info s)) ∨
        ((∀ s ∈ fs.symbols, ¬s.line ≤ c) ∧ get_symbol_at_cursor idx p c = none))) := by
  refine ⟨?_, ?_⟩
  · intro h
    unfold get_symbol_at_cursor
    rw [h]
  · intro fs hfs
    constructor
    · intro s hfind
      have hp := List.find?_some hfind
      simp only [Bool.and_eq_true, decide_eq_true_eq] at hp
      refine ⟨?_, List.mem_of_find?_eq_some hfind, hp.1, hp.2⟩
      unfold get_symbol_at_cursor
      rw [hfs]
      dsimp only
      rw [hfind]
    · intro hnone
      cases hfold : fs.symbols.foldl (nearestStep c) none with
      | none =>
          right
          refine ⟨((nearestFold_spec_aux c fs.symbols none).1 hfold).2, ?_⟩
          unfold get_symbol_at_cursor
          rw [hfs]
          dsimp only
          rw [hnone]
          dsimp only
          rw [hfold]
      | some n =>
          left
          rcases (nearestFold_spec_aux c fs.symbols none).2 n hfold with ⟨hfst, hall, _⟩
          rcases hfst with ⟨hmem, hle⟩ | hbad
          · refine ⟨n, hmem, hle, hall, ?_⟩
            unfold get_symbol_at_cursor
            rw [hfs]
            dsimp only
            rw [hnone]
            dsimp only
            rw [hfold]
          · cases hbad

/-- `class A` spanning lines 1-10 of `a.py`. -/
def classA : Symbol :=
  { name := "A", kind := "class", file_path := "a.py", line := 1, end_line := 10,
    column := 0, signature := "class A", docstring := "", parent := none,
    calls := [], called_by := [] }

/-- `def m(self)` inside `A`, spanning lines 3-5. -/
def methodM : Symbol :=
  { name := "m", kind := "method", file_path := "a.py", line := 3, end_line := 5,
    column := 4, signature := "def m(self)", docstring := "", parent := some "A",
    calls := [], called_by := [] }

/-- The file bundle lists the class before its method, exactly as the
Python extractor emits them. -/
def fsA : FileSymbols :=
  { file_path := "a.py", language := "python", symbols := [classA, methodM],
    imports := [], last_modified := 0 }

def idxA : String → Option FileSymbols :=
  fun q => if q = "a.py" then some fsA else none

/-- C8 counterexample: with the cursor on line 4, both the class (1-10) and
its method (3-5) contain the cursor and the method is the innermost, but
the first loop of `get_symbol_at_cursor` returns the first listed
containing symbol — the class — so the claimed "innermost symbol" is
false. -/
theorem C8_counterexample :
    get_symbol_at_cursor idxA "a.py" 4 = some (symbol_to_info classA) ∧
    symbol_to_info classA ≠ symbol_to_info methodM := by
  decide

/-- C8 witness: cursor on line 20, below every span; the amended theorem is
instantiated on the concrete index. -/
theorem C8_witness :
    idxA "a.py" = some fsA ∧
    fsA.symbols.find? (fun t => decide (t.line ≤ 20) && decide (20 ≤ t.end_line)) = none ∧
    ((∃ s ∈ fsA.symbols, s.line ≤ 20 ∧
      (∀ t ∈ fsA.symbols, t.line ≤ 20 → t.line ≤ s.line) ∧
      get_symbol_at_cursor idxA "a.py" 20 = some (symbol_to_info s)) ∨
     ((∀ s ∈ fsA.symbols, ¬s.line ≤ 20) ∧
      get_symbol_at_cursor idxA "a.py" 20 = none)) := by
  have h1 : idxA "a.py" = some fsA := by decide
  have h2 : fsA.symbols.find?
      (fun t => decide (t.line ≤ 20) && decide (20 ≤ t.end_line)) = none := by decide
  exact ⟨h1, h2, ((C8_symbol_at_cursor_amended idxA "a.py" 20).2 fsA h1).2 h2⟩

end Indexer

/-! ## Memory service (`memory_service.py`) -/

namespace Memory

/-- `ChatMessage` dataclass (`memory_service.py` lines 36-42); the
timestamp and metadata fields play no role in the trimming logic or the
active-conversation bookkeeping and are omitted. -/
structure ChatMessage where
  role : String
  content : String
deriving DecidableEq

/-- `self.max_history_length` (`memory_service.py` line 94), never
reassigned. -/
def max_history_length : Nat := 50

/-- Python `l[i:]` for a possibly negative integer index. -/
def pySliceFrom {α : Type} (l : List α) (i : Int) : List α :=
  if 0 ≤ i then l.drop i.toNat
  else l.drop (l.length - (-i).toNat)

/-- The trim step of `add_message` (`memory_service.py` lines 214-218):
when more than 50 messages are held, keep
`system_msgs + messages[-50 + len(system_msgs):]`. -/
def trimMessages (msgs : List ChatMessage) : List ChatMessage :=
  if max_history_length < msgs.length then
    let system_msgs := msgs.filter (fun x => x.role == "system")
    let recent_msgs := pySliceFrom msgs (-(max_history_length : Int) + system_msgs.length)
    system_msgs ++ recent_msgs
  else msgs

/-- The message-list effect of `add_message` (append, then trim). -/
def addMessageList (msgs : List ChatMessage) (m : ChatMessage) : List ChatMessage :=
  trimMessages (msgs ++ [m])

/-- Fifty distinct non-system messages. -/
def msgs50 : List ChatMessage :=
  (List.range 50).map (fun i => { role := "user", content := toString i })

/-- C7 counterexample: appending a system message to 50 user messages
trims to 50 messages, but the freshly appended system message lands both
in `system_msgs` and in the recent tail `messages[-49:]`, so it is
retained twice — the claimed "no message appearing twice" is false (and
the retained list is not 'all system messages plus the most recent
non-system messages'). -/
theorem C7_counterexample :
    List.count { role := "system", content := "sys" }
      (addMessageList msgs50 { role := "system", content := "sys" }) = 2 := by
  decide

/-- C7 (amended): after `add_message` the conversation holds at most 50
messages provided it held at most 50 before the call and at most 49 of the
appended list's messages are system messages; and when the cap was
exceeded the retained list is exactly all system messages followed by the
last `50 − s` messages of the appended list (so a system message lying in
that recent tail is retained twice, and with 50 or more system messages
the cap itself can be exceeded). -/
theorem C7_add_message_amended (msgs : List ChatMessage) (m : ChatMessage)
    (hlen : msgs.length ≤ 50)
    (hsys : ((msgs ++ [m]).filter (fun x => x.role == "system")).length ≤ 49) :
    (addMessageList msgs m).length ≤ 50 ∧
    (msgs.length = 50 →
      addMessageList msgs m =
        (msgs ++ [m]).filter (fun x => x.role == "system") ++
          (msgs ++ [m]).drop
            (((msgs ++ [m]).filter (fun x => x.role == "system")).length + 1)) := by
  unfold addMessageList trimMessages
  by_cases htrim : max_history_length < (msgs ++ [m]).length
  · have hl51 : (msgs ++ [m]).length = 51 := by
      unfold max_history_length at htrim
      simp only [List.length_append, List.length_cons, List.length_nil] at htrim ⊢
      omega
    rw [if_pos htrim]
    dsimp only
    have hslice : pySliceFrom (msgs ++ [m])
        (-(max_history_length : Int) +
          ((msgs ++ [m]).filter (fun x => x.role == "system")).length) =
        (msgs ++ [m]).drop
          (((msgs ++ [m]).filter (fun x => x.role == "system")).length + 1) := by
      unfold pySliceFrom max_history_length
      rw [if_neg (by omega)]
      congr 1
      omega
    rw [hslice]
    refine ⟨?_, fun _ => rfl⟩
    rw [List.length_append, List.length_drop, hl51]
    omega
  · rw [if_neg htrim]
    unfold max_history_length at htrim
    refine ⟨by omega, ?_⟩
    intro h50
    exfalso
    apply htrim
    simp only [List.length_append, List.length_cons, List.length_nil, h50]
    omega

/-- C7 witness: a non-system append on a full conversation, instantiating
the amended cap and the trim equation. -/
theorem C7_witness :
    msgs50.length ≤ 50 ∧
    ((msgs50 ++ [({ role := "user", content := "x" } : ChatMessage)]).filter
      (fun x => x.role == "system")).length ≤ 49 ∧
    (addMessageList msgs50 { role := "user", content := "x" }).length ≤ 50 ∧
    addMessageList msgs50 { role := "user", content := "x" } =
      (msgs50 ++ [({ role := "user", content := "x" } : ChatMessage)]).filter
        (fun x => x.role == "system") ++
      (msgs50 ++ [({ role := "user", content := "x" } : ChatMessage)]).drop
        (((msgs50 ++ [({ role := "user", content := "x" } : ChatMessage)]).filter
          (fun x => x.role == "system")).length + 1) := by
  have h1 : msgs50.length ≤ 50 := by decide
  have h2 : ((msgs50 ++ [({ role := "user", content := "x" } : ChatMessage)]).filter
      (fun x => x.role == "system")).length ≤ 49 := by decide
  have h := C7_add_message_amended msgs50 { role := "user", content := "x" } h1 h2
  exact ⟨h1, h2, h.1, h.2 (by decide)⟩

/-- `Conversation` dataclass (`memory_service.py` lines 45-54); timestamps,
project root and metadata do not affect the claims and are omitted. -/
structure Conversation where
  id : String
  title : String
  messages : List ChatMessage
deriving DecidableEq

/-- The `MemoryService` state relevant to conversations: the
`conversations` dict (as a total map to `Option`) and the active id. -/
structure MemoryState where
  conversations : String → Option Conversation
  active_conversation_id : Option String

/-- On construction `conversations` is loaded from disk (possibly empty)
and `active_conversation_id` starts as `None`; the initial state models a
fresh store. -/
def initMemory : MemoryState :=
  { conversations := fun _ => none, active_conversation_id := none }

/-- `create_conversation` (`memory_service.py` lines 104-124); the MD5
based `_generate_id` is external input, passed in as `convId`. -/
def create_conversation (s : MemoryState) (convId title : String) : MemoryState :=
  { conversations := fun k =>
      if k = convId then some { id := convId, title := title, messages := [] }
      else s.conversations k,
    active_conversation_id := some convId }

/-- `set_active_conversation` (`memory_service.py` lines 136-142): refuses
unknown ids. -/
def set_active_conversation (s : MemoryState) (convId : String) : MemoryState :=
  if (s.conversations convId).isSome then
    { s with active_conversation_id := some convId }
  else s

/-- `delete_conversation` (`memory_service.py` lines 162-178): removes the
entry and clears the active id when it pointed at the deleted
conversation. -/
def delete_conversation (s : MemoryState) (convId : String) : MemoryState :=
  if (s.conversations convId).isSome then
    { conversations := fun k => if k = convId then none else s.conversations k,
      active_conversation_id :=
        if s.active_conversation_id = some convId then none
        else s.active_conversation_id }
  else s

/-- `add_message` (`memory_service.py` lines 184-223): target the explicit
conversation id, else the active one, else create a fresh conversation
(which becomes active); a missing explicit target raises `ValueError`
before any mutation, modelled as the unchanged state. -/
def add_message (s : MemoryState) (cid : Option String) (newId : String)
    (m : ChatMessage) : MemoryState :=
  match cid.orElse (fun _ => s.active_conversation_id) with
  | some tid =>
      match s.conversations tid with
      | some conv =>
          { s with conversations := fun k =>
              if k = tid then
                some { conv with messages := trimMessages (conv.messages ++ [m]) }
              else s.conversations k }
      | none => s
  | none =>
      let s1 := create_conversation s newId "New Conversation"
      match s1.conversations newId with
      | some conv =>
          { s1 with conversations := fun k =>
              if k = newId then
                some { conv with messages := trimMessages (conv.messages ++ [m]) }
              else s1.conversations k }
      | none => s1

/-- The conversation-management operations of the Memory Store. -/
inductive MemOp where
  | create (id title : String)
  | setActive (id : String)
  | addMsg (cid : Option String) (newId : String) (m : ChatMessage)
  | deleteConv (id : String)

def memStep (s : MemoryState) (op : MemOp) : MemoryState :=
  match op with
  | .create id title => create_conversation s id title
  | .setActive id => set_active_conversation s id
  | .addMsg cid newId m => add_message s cid newId m
  | .deleteConv id => delete_conversation s id

/-- The active id always names a stored conversation. -/
def ActiveOK (s : MemoryState) : Prop :=
  ∀ id, s.active_conversation_id = some id → (s.conversations id).isSome

theorem activeOK_init : ActiveOK initMemory := by
  intro id h
  simp [initMemory] at h

theorem activeOK_step (s : MemoryState) (op : MemOp) (h : ActiveOK s) :
    ActiveOK (memStep s op) := by
  cases op with
  | create cid title =>
      intro id hid
      simp only [memStep, create_conversation] at hid ⊢
      cases hid
      simp
  | setActive cid =>
      intro id hid
      simp only [memStep, set_active_conversation] at hid ⊢
      by_cases hex : (s.conversations cid).isSome
      · rw [if_pos hex] at hid ⊢
        dsimp only at hid ⊢
        cases hid
        exact hex
      · rw [if_neg hex] at hid ⊢
        exact h id hid
  | deleteConv cid =>
      intro id hid
      simp only [memStep, delete_conversation] at hid ⊢
      by_cases hex : (s.conversations cid).isSome
      · rw [if_pos hex] at hid ⊢
        dsimp only at hid ⊢
        by_cases hact : s.active_conversation_id = some cid
        · rw [if_pos hact] at hid
          cases hid
        · rw [if_neg hact] at hid
          have hneq : id ≠ cid := by
            intro hh
            subst hh
            exact hact hid
          rw [if_neg hneq]
          exact h id hid
      · rw [if_neg hex] at hid ⊢
        exact h id hid
  | addMsg cid newId m =>
      intro id hid
      simp only [memStep, add_message] at hid ⊢
      cases htgt : cid.orElse (fun _ => s.active_conversation_id) with
      | some tid =>
          rw [htgt] at hid
          dsimp only at hid ⊢
          cases hconv : s.conversations tid with
          | some conv =>
              rw [hconv] at hid
              dsimp only at hid ⊢
              by_cases hkt : id = tid
              · rw [if_pos hkt]
                simp
              · rw [if_neg hkt]
                exact h id hid
          | none =>
              rw [hconv] at hid
              exact h id hid
      | none =>
          rw [htgt] at hid
          simp only [create_conversation, eq_self_iff_true, if_true] at hid ⊢
          cases hid
          simp

theorem activeOK_run (ops : List MemOp) (s : MemoryState) (hs : ActiveOK s) :
    ActiveOK (ops.foldl memStep s) := by
  induction ops generalizing s with
  | nil => exact hs
  | cons op rest ih =>
      rw [List.foldl_cons]
      exact ih _ (activeOK_step s op hs)

/-- C10: after any sequence of conversation operations starting from a
fresh store, the active conversation id, when set, names a conversation
present in the map — `set_active_conversation` refuses unknown ids,
`delete_conversation` of the active conversation resets the id, and
`add_message` with no target creates and activates a conversation. -/
theorem C10_active_conversation_valid (ops : List MemOp) (id : String)
    (h : (ops.foldl memStep initMemory).active_conversation_id = some id) :
    ((ops.foldl memStep initMemory).conversations id).isSome :=
  activeOK_run ops initMemory activeOK_init id h

/-- C10 witness: creating one conversation makes it active and stored. -/
theorem C10_witness :
    ([MemOp.create "c1" "t"].foldl memStep initMemory).active_conversation_id = some "c1" ∧
    (([MemOp.create "c1" "t"].foldl memStep initMemory).conversations "c1").isSome := by
  have h : ([MemOp.create "c1" "t"].foldl memStep initMemory).active_conversation_id =
      some "c1" := rfl
  exact ⟨h, C10_active_conversation_valid [MemOp.create "c1" "t"] "c1" h⟩

end Memory

/-! ## Embedding service (`embedding_service.py`) -/

namespace Embedding

/-- `EmbeddedItem` dataclass (`embedding_service.py` lines 64-70); the
embedding vector is a list of exact rationals, the metadata dict does not
affect the claims. -/
structure EmbeddedItem where
  id : String
  text : String
  embedding : List ℚ
deriving DecidableEq

/-- The `EmbeddingIndex` state relevant to persistence: the configured
dimension and the `id → item` dict (as an insertion-ordered association
list with in-place overwrite). -/
structure EmbeddingIndexState where
  dimension : Nat
  items : List (String × EmbeddedItem)
deriving DecidableEq

/-- Python dict assignment: replace in place if the key exists, else
append. -/
def dUpsertItem (l : List (String × EmbeddedItem)) (k : String) (v : EmbeddedItem) :
    List (String × EmbeddedItem) :=
  if l.any (fun kv => kv.1 == k) then
    l.map (fun kv => if kv.1 == k then (k, v) else kv)
  else l ++ [(k, v)]

/-- A parsed persisted index document: `data.get("dimension", 384)` and
`data.get("items", [])`. -/
structure IndexDoc where
  dimension : Option Nat
  items : List EmbeddedItem
deriving DecidableEq

/-- `EmbeddingIndex.load` (`embedding_service.py` lines 238-264).  The
file-system and JSON layer is modelled as an optional already-parsed
document: `none` for a missing file (the `os.path.exists` early return).
The loaded dimension is `data.get("dimension", 384)`; there is no
comparison against the index's configured dimension. -/
def load (st : EmbeddingIndexState) (doc : Option IndexDoc) :
    EmbeddingIndexState × Bool :=
  match doc with
  | none => (st, false)
  | some d =>
      ({ dimension := d.dimension.getD 384,
         items := d.items.foldl (fun acc it => dUpsertItem acc it.id it) [] }, true)

/-- C6 counterexample: loading a document whose recorded dimension is 999
into an index configured with dimension 384 reports success and silently
adopts 999 — the claimed mismatch failure does not exist. -/
theorem C6_counterexample :
    (load { dimension := 384, items := [] }
      (some { dimension := some 999, items := [] })).2 = true ∧
    (load { dimension := 384, items := [] }
      (some { dimension := some 999, items := [] })).1.dimension = 999 := by
  decide

/-- C6 (amended): `load` of any readable document always succeeds and
adopts the document's recorded dimension (default 384 when the field is
absent), regardless of the index's configured dimension; it fails only
when the file does not exist (or the document cannot be parsed). -/
theorem C6_load_amended (st : EmbeddingIndexState) (d : IndexDoc) :
    (load st (some d)).2 = true ∧
    (load st (some d)).1.dimension = d.dimension.getD 384 ∧
    (load st none).2 = false ∧
    (load st none).1 = st :=
  ⟨rfl, rfl, rfl, rfl⟩

end Embedding

namespace Embedding

/-! ### Hybrid search (`embedding_service.py` lines 491-556) -/

/-- A keyword search result.  `_generate_symbol_id` hashes the
`(file_path, line, name)` triple into the 16-hex-digit stable id; the hash
is carried here as the stored field `sid`. -/
structure KwResult where
  sid : String
  name : String
deriving DecidableEq

/-- `SearchResult` (`embedding_service.py` lines 73-79) with its cosine
score as an exact rational; the metadata payload does not affect the
claims. -/
structure SearchResult where
  id : String
  text : String
  score : ℚ
deriving DecidableEq

/-- One entry of the `scores` dict: combined score and source tag.  (The
Python value also carries the result payload `data`; entries here are
keyed by the stable id that identifies that payload.) -/
structure HybridEntry where
  score : ℚ
  source : String
deriving DecidableEq

/-- `scores[id] = {...}` on a fresh key appends; on an existing key it
replaces in place (dict insertion order is preserved). -/
def scoreUpsert (l : List (String × HybridEntry)) (k : String) (v : HybridEntry) :
    List (String × HybridEntry) :=
  if l.any (fun kv => kv.1 == k) then
    l.map (fun kv => if kv.1 == k then (k, v) else kv)
  else l ++ [(k, v)]

/-- `scores[id]["score"] += semantic_score; scores[id]["source"] = "hybrid"`. -/
def scoreMerge (l : List (String × HybridEntry)) (k : String) (add : ℚ) :
    List (String × HybridEntry) :=
  l.map (fun kv =>
    if kv.1 == k then (k, { score := kv.2.score + add, source := "hybrid" }) else kv)

def hasKey (l : List (String × HybridEntry)) (k : String) : Bool :=
  l.any (fun kv => kv.1 == k)

def sLookup (l : List (String × HybridEntry)) (k : String) : Option HybridEntry :=
  (l.find? (fun kv => kv.1 == k)).map (fun kv => kv.2)

/-- The `for i, result in enumerate(keyword_results[:top_k])` loop
(lines 519-526), with the running index made explicit; `N` is the length
of the FULL keyword list, as in `len(keyword_results) + 1`. -/
def kwLoop (w_k : ℚ) (N : ℚ) : Nat → List (String × HybridEntry) →
    List KwResult → List (String × HybridEntry)
  | _, acc, [] => acc
  | i, acc, k :: ks =>
      kwLoop w_k N (i + 1)
        (scoreUpsert acc k.sid
          { score := (1 - (i : ℚ) / (N + 1)) * w_k, source := "keyword" }) ks

def kwPhase (w_k : ℚ) (N : Nat) (top_k : Nat) (kws : List KwResult) :
    List (String × HybridEntry) :=
  kwLoop w_k (N : ℚ) 0 [] (kws.take top_k)

/-- The `for result in semantic_results` loop (lines 529-543). -/
def semPhase (w_s : ℚ) (sems : List SearchResult)
    (scores : List (String × HybridEntry)) : List (String × HybridEntry) :=
  sems.foldl
    (fun acc r =>
      if hasKey acc r.id then scoreMerge acc r.id (r.score * w_s)
      else acc ++ [(r.id, { score := r.score * w_s, source := "semantic" })])
    scores

/-- `EmbeddingService.hybrid_search` (lines 491-556): keyword phase over
the first `top_k` keyword results, semantic merge phase, stable sort by
score descending, truncation to `top_k`.  The semantic result list (the
`search_symbols(query, top_k * 2)` output) is an input, the embedding
model being external. -/
def hybrid_search (kws : List KwResult) (sems : List SearchResult)
    (top_k : Nat) (w_k w_s : ℚ) : List (String × HybridEntry) :=
  (pySortDesc (fun a b => decide (b.2.score ≤ a.2.score))
    (semPhase w_s sems (kwPhase w_k kws.length top_k kws))).take top_k

theorem hasKey_iff (l : List (String × HybridEntry)) (k : String) :
    hasKey l k = true ↔ (sLookup l k).isSome := by
  unfold hasKey sLookup
  rw [List.any_eq_true]
  cases hf : l.find? (fun kv => kv.1 == k) with
  | none =>
      rw [List.find?_eq_none] at hf
      simp only [Option.map_none', Option.isSome_none, Bool.false_eq_true, iff_false]
      rintro ⟨x, hx, hp⟩
      exact hf x hx hp
  | some kv =>
      simp only [Option.map_some', Option.isSome_some, iff_true]
      have hp := List.find?_some hf
      exact ⟨kv, List.mem_of_find?_eq_some hf, hp⟩

theorem sLookup_append_one (l : List (String × HybridEntry)) (k0 : String)
    (v : HybridEntry) (k : String) :
    sLookup (l ++ [(k0, v)]) k =
      match sLookup l k with
      | some e => some e
      | none => if k = k0 then some v else none := by
  unfold sLookup
  rw [List.find?_append]
  cases hf : l.find? (fun kv => kv.1 == k) with
  | some kv => simp
  | none =>
      simp only [Option.none_or, Option.map_none']
      by_cases hk : k = k0
      · subst hk
        simp [List.find?_cons]
      · simp [List.find?_cons, beq_false_of_ne (Ne.symm hk), hk]

theorem sLookup_cons (kv : String × HybridEntry) (rest : List (String × HybridEntry))
    (k : String) :
    sLookup (kv :: rest) k = if kv.1 = k then some kv.2 else sLookup rest k := by
  unfold sLookup
  rw [List.find?_cons]
  by_cases h : kv.1 = k
  · simp [h]
  · simp [beq_false_of_ne h, h]

theorem sLookup_scoreMerge (l : List (String × HybridEntry)) (k0 : String) (a : ℚ)
    (k : String) :
    sLookup (scoreMerge l k0 a) k =
      if k = k0 then
        (sLookup l k).map (fun e => { score := e.score + a, source := "hybrid" })
      else sLookup l k := by
  induction l with
  | nil =>
      by_cases hk : k = k0 <;> simp [scoreMerge, sLookup, hk]
  | cons kv rest ih =>
      have hexp : scoreMerge (kv :: rest) k0 a =
          (if (kv.1 == k0) = true then
            (k0, { score := kv.2.score + a, source := "hybrid" }) else kv) ::
            scoreMerge rest k0 a := rfl
      rw [hexp]
      by_cases h0 : kv.1 = k0
      · rw [if_pos (by simp [h0])]
        rw [sLookup_cons, sLookup_cons]
        by_cases hk : k = k0
        · subst hk
          rw [if_pos rfl, if_pos rfl, if_pos h0]
          simp
        · have h1 : (k0 : String) ≠ k := fun hh => hk hh.symm
          have h2 : kv.1 ≠ k := by
            rw [h0]
            exact h1
          rw [if_neg h1, if_neg hk, if_neg h2, ih, if_neg hk]
      · rw [if_neg (by simp [h0])]
        rw [sLookup_cons, sLookup_cons]
        by_cases hvk : kv.1 = k
        · have hkk0 : k ≠ k0 := by
            rw [← hvk]
            exact h0
          rw [if_neg hkk0, if_pos hvk, if_pos hvk]
        · rw [if_neg hvk, if_neg hvk, ih]

theorem semPhase_lookup (w_s : ℚ) (sems : List SearchResult)
    (scores : List (String × HybridEntry)) (k : String)
    (hnd : (sems.map (fun r => r.id)).Nodup) :
    sLookup (semPhase w_s sems scores) k =
      match sems.find? (fun r => r.id == k), sLookup scores k with
      | some r, some e => some { score := e.score + r.score * w_s, source := "hybrid" }
      | none, some e => some e
      | some r, none => some { score := r.score * w_s, source := "semantic" }
      | none, none => none := by
  induction sems generalizing scores with
  | nil =>
      cases h : sLookup scores k <;> simp [semPhase, h]
  | cons r rest ih =>
      rw [List.map_cons, List.nodup_cons] at hnd
      rcases hnd with ⟨hnotin, hndrest⟩
      have hexp : semPhase w_s (r :: rest) scores =
          semPhase w_s rest
            (if hasKey scores r.id then scoreMerge scores r.id (r.score * w_s)
             else scores ++ [(r.id, { score := r.score * w_s, source := "semantic" })]) := rfl
      rw [hexp, List.find?_cons]
      by_cases hrk : r.id = k
      · have hbeq : (r.id == k) = true := beq_iff_eq.mpr hrk
        rw [hbeq]
        have hrest_none : rest.find? (fun x => x.id == k) = none := by
          rw [List.find?_eq_none]
          intro x hx hpx
          rw [beq_iff_eq] at hpx
          exact hnotin (List.mem_map.mpr ⟨x, hx, hpx.trans hrk.symm⟩)
        rw [ih _ hndrest, hrest_none]
        by_cases hsk : hasKey scores r.id
        · rw [if_pos hsk]
          rw [sLookup_scoreMerge, if_pos hrk.symm]
          have hs := (hasKey_iff scores r.id).mp hsk
          rw [hrk] at hs
          cases he : sLookup scores k with
          | none =>
              rw [he] at hs
              cases hs
          | some e => rfl
        · rw [if_neg hsk]
          rw [sLookup_append_one]
          have hs : sLookup scores k = none := by
            cases he : sLookup scores k with
            | none => rfl
            | some e =>
                exfalso
                apply hsk
                rw [hasKey_iff, hrk, he]
                rfl
          rw [hs, if_pos hrk.symm]
      · have hbeq : (r.id == k) = false := beq_false_of_ne hrk
        rw [hbeq]
        by_cases hsk : hasKey scores r.id
        · rw [if_pos hsk]
          rw [ih _ hndrest, sLookup_scoreMerge, if_neg (fun hh => hrk hh.symm)]
        · rw [if_neg hsk]
          rw [ih _ hndrest, sLookup_append_one]
          cases he : sLookup scores k with
          | some e => rfl
          | none =>
              rw [if_neg (fun hh => hrk hh.symm)]

theorem sLookup_eq_none_of_hasKey_false (l : List (String × HybridEntry)) (k : String)
    (h : hasKey l k = false) : sLookup l k = none := by
  cases he : sLookup l k with
  | none => rfl
  | some e =>
      exfalso
      have hsome : (sLookup l k).isSome := by
        rw [he]
        rfl
      have := (hasKey_iff l k).mpr hsome
      rw [h] at this
      cases this

theorem sLookup_replace_other (l : List (String × HybridEntry)) (k0 : String)
    (v : HybridEntry) (k : String) (h : k ≠ k0) :
    sLookup (l.map (fun kv => if kv.1 == k0 then (k0, v) else kv)) k = sLookup l k := by
  induction l with
  | nil => rfl
  | cons kv rest ih =>
      by_cases h0 : kv.1 = k0
      · have hhead : (if (kv.1 == k0) = true then (k0, v) else kv) = (k0, v) := by
          simp [h0]
        rw [List.map_cons, hhead, sLookup_cons, sLookup_cons]
        rw [if_neg (fun hh => h hh.symm)]
        rw [if_neg (fun hh : kv.1 = k => h ((hh.symm.trans h0)))]
        exact ih
      · have hhead : (if (kv.1 == k0) = true then (k0, v) else kv) = kv := by
          simp [h0]
        rw [List.map_cons, hhead, sLookup_cons, sLookup_cons]
        by_cases hvk : kv.1 = k
        · rw [if_pos hvk, if_pos hvk]
        · rw [if_neg hvk, if_neg hvk]
          exact ih

theorem sLookup_scoreUpsert_other (acc : List (String × HybridEntry)) (k0 : String)
    (v : HybridEntry) (k : String) (h : k ≠ k0) :
    sLookup (scoreUpsert acc k0 v) k = sLookup acc k := by
  unfold scoreUpsert
  split
  · exact sLookup_replace_other acc k0 v k h
  · rw [sLookup_append_one]
    cases he : sLookup acc k with
    | some e => rfl
    | none => rw [if_neg h]

theorem sLookup_scoreUpsert_fresh (acc : List (String × HybridEntry)) (k0 : String)
    (v : HybridEntry) (h : hasKey acc k0 = false) :
    sLookup (scoreUpsert acc k0 v) k0 = some v := by
  unfold scoreUpsert
  have hany : (acc.any (fun kv => kv.1 == k0)) = false := h
  rw [hany]
  simp only [Bool.false_eq_true, if_false]
  rw [sLookup_append_one, sLookup_eq_none_of_hasKey_false acc k0 h, if_pos rfl]


theorem hasKey_eq_false_iff (l : List (String × HybridEntry)) (k : String) :
    hasKey l k = false ↔ sLookup l k = none := by
  constructor
  · exact sLookup_eq_none_of_hasKey_false l k
  · intro h
    cases hh : hasKey l k
    · rfl
    · have hs := (hasKey_iff l k).mp hh
      rw [h] at hs
      cases hs

theorem kwLoop_lookup_notin (w_k N : ℚ) (ks : List KwResult) (i0 : Nat)
    (acc : List (String × HybridEntry)) (k : String)
    (hk : k ∉ ks.map (fun r => r.sid)) :
    sLookup (kwLoop w_k N i0 acc ks) k = sLookup acc k := by
  induction ks generalizing i0 acc with
  | nil => rfl
  | cons r rest ih =>
      rw [List.map_cons, List.mem_cons] at hk
      push_neg at hk
      have hstep : kwLoop w_k N i0 acc (r :: rest) =
          kwLoop w_k N (i0 + 1)
            (scoreUpsert acc r.sid
              { score := (1 - (i0 : ℚ) / (N + 1)) * w_k, source := "keyword" }) rest := rfl
      rw [hstep, ih _ _ hk.2, sLookup_scoreUpsert_other _ _ _ _ hk.1]

theorem kwLoop_lookup_idx (w_k N : ℚ) (ks : List KwResult) (i0 : Nat)
    (acc : List (String × HybridEntry))
    (hnd : (ks.map (fun r => r.sid)).Nodup)
    (hfresh : ∀ r ∈ ks, hasKey acc r.sid = false)
    (j : Nat) (kr : KwResult) (hj : ks.get? j = some kr) :
    sLookup (kwLoop w_k N i0 acc ks) kr.sid =
      some { score := (1 - ((i0 + j : Nat) : ℚ) / (N + 1)) * w_k, source := "keyword" } := by
  induction ks generalizing i0 acc j with
  | nil => cases hj
  | cons r rest ih =>
      rw [List.map_cons, List.nodup_cons] at hnd
      have hnotin : r.sid ∉ rest.map (fun r => r.sid) := hnd.1
      have hndrest := hnd.2
      have hstep : kwLoop w_k N i0 acc (r :: rest) =
          kwLoop w_k N (i0 + 1)
            (scoreUpsert acc r.sid
              { score := (1 - (i0 : ℚ) / (N + 1)) * w_k, source := "keyword" }) rest := rfl
      rw [hstep]
      cases j with
      | zero =>
          have hkr : kr = r := by
            rw [List.get?_cons_zero] at hj
            exact (Option.some.inj hj).symm
          subst hkr
          rw [kwLoop_lookup_notin w_k N rest (i0 + 1) _ kr.sid hnotin]
          rw [sLookup_scoreUpsert_fresh acc kr.sid _ (hfresh kr (List.mem_cons_self kr rest))]
          rw [Nat.add_zero]
      | succ j' =>
          have hj' : rest.get? j' = some kr := hj
          have hfresh' : ∀ x ∈ rest, hasKey (scoreUpsert acc r.sid
              { score := (1 - (i0 : ℚ) / (N + 1)) * w_k, source := "keyword" }) x.sid = false := by
            intro x hx
            have hxr : x.sid ≠ r.sid := fun hh =>
              hnotin (hh ▸ List.mem_map_of_mem (fun r => r.sid) hx)
            rw [hasKey_eq_false_iff]
            rw [sLookup_scoreUpsert_other acc r.sid _ x.sid hxr]
            exact (hasKey_eq_false_iff acc x.sid).mp (hfresh x (List.mem_cons_of_mem r hx))
          rw [ih (i0 + 1) _ hndrest hfresh' j' hj']
          rw [show i0 + 1 + j' = i0 + (j' + 1) from by omega]

theorem kwPhase_lookup (w_k : ℚ) (N top_k : Nat) (kws : List KwResult)
    (hknd : (kws.map (fun r => r.sid)).Nodup)
    (j : Nat) (kr : KwResult) (hj : (kws.take top_k).get? j = some kr) :
    sLookup (kwPhase w_k N top_k kws) kr.sid =
      some { score := (1 - (j : ℚ) / ((N : ℚ) + 1)) * w_k, source := "keyword" } := by
  have hnd' : ((kws.take top_k).map (fun r => r.sid)).Nodup := by
    rw [List.map_take]
    exact (List.take_sublist top_k _).nodup hknd
  have := kwLoop_lookup_idx w_k (N : ℚ) (kws.take top_k) 0 []
    hnd' (fun r _ => rfl) j kr hj
  rw [Nat.zero_add] at this
  exact this

theorem kwPhase_lookup_notin (w_k : ℚ) (N top_k : Nat) (kws : List KwResult) (k : String)
    (hk : k ∉ (kws.take top_k).map (fun r => r.sid)) :
    sLookup (kwPhase w_k N top_k kws) k = none := by
  rw [kwPhase, kwLoop_lookup_notin w_k (N : ℚ) (kws.take top_k) 0 [] k hk]
  rfl


/-- C5: counterexample.  `hybrid_search` truncates the keyword list to
`top_k` BEFORE scoring (`keyword_results[:top_k]`, line 519), so the symbol
"b" — present at 0-based keyword rank 1 in a keyword list of length 2 AND
present in the semantic results with cosine 9/10 — comes out with
`source = "semantic"` and score `w_s * 9/10 = 27/50` only, not
`source = "hybrid"` with the fused keyword+semantic score, refuting the
claim at `top_k = 1`. -/
theorem C5_counterexample :
    ([KwResult.mk "a" "A", KwResult.mk "b" "B"].get? 1 = some (KwResult.mk "b" "B")) ∧
    hybrid_search [KwResult.mk "a" "A", KwResult.mk "b" "B"]
        [SearchResult.mk "b" "B" (9/10)] 1 (2/5) (3/5) =
      [("b", { score := 27/50, source := "semantic" })] := by
  refine ⟨rfl, ?_⟩
  have hstep : hybrid_search [KwResult.mk "a" "A", KwResult.mk "b" "B"]
      [SearchResult.mk "b" "B" (9/10)] 1 (2/5) (3/5) =
      (insSorted (fun a b : String × HybridEntry => decide (b.2.score ≤ a.2.score))
        ("a", { score := (1 - ((0 : Nat) : ℚ) / (((2 : Nat) : ℚ) + 1)) * (2/5),
                source := "keyword" })
        [("b", { score := (9/10 : ℚ) * (3/5), source := "semantic" })]).take 1 := rfl
  have hcmp : (decide ((9/10 : ℚ) * (3/5) ≤
      (1 - ((0 : Nat) : ℚ) / (((2 : Nat) : ℚ) + 1)) * (2/5))) = false := by
    rw [decide_eq_false_iff_not]
    norm_num
  rw [hstep, insSorted]
  dsimp only
  rw [hcmp]
  simp only [Bool.false_eq_true, if_false, insSorted, List.take_succ_cons, List.take_zero,
    List.cons.injEq, Prod.mk.injEq, HybridEntry.mk.injEq, and_true, true_and]
  norm_num

/-- C5: amended hybrid-fusion law.  Under duplicate-free stable ids, the
output of `hybrid_search` is the stable descending sort (by combined
score) of the merged score dict, truncated to `top_k`; and the merged
score dict is characterized entry-wise: a symbol at 0-based rank `j`
WITHIN THE FIRST `top_k` keyword results (the code truncates the keyword
list to `top_k` before scoring) that also occurs in the semantic results
gets `source = "hybrid"` and score `w_k·(1 − j/(N+1)) + w_s·cosine` with
`N` the FULL keyword-list length; within the first `top_k` keyword
results only — `source = "keyword"`; in the semantic results only (which
includes symbols at keyword rank ≥ top_k) — `source = "semantic"` with
score `w_s·cosine`; otherwise absent.  The output has at most `top_k`
entries and is sorted by score descending. -/
theorem C5_hybrid_fusion_amended (kws : List KwResult) (sems : List SearchResult)
    (top_k : Nat) (w_k w_s : ℚ)
    (hknd : (kws.map (fun r => r.sid)).Nodup)
    (hsnd : (sems.map (fun r => r.id)).Nodup) :
    (hybrid_search kws sems top_k w_k w_s =
      (pySortDesc (fun a b => decide (b.2.score ≤ a.2.score))
        (semPhase w_s sems (kwPhase w_k kws.length top_k kws))).take top_k) ∧
    (hybrid_search kws sems top_k w_k w_s).length ≤ top_k ∧
    (hybrid_search kws sems top_k w_k w_s).Pairwise
      (fun a b => b.2.score ≤ a.2.score) ∧
    (∀ j kr, (kws.take top_k).get? j = some kr →
      ∀ r, sems.find? (fun s => s.id == kr.sid) = some r →
        sLookup (semPhase w_s sems (kwPhase w_k kws.length top_k kws)) kr.sid =
          some { score := (1 - (j : ℚ) / ((kws.length : ℚ) + 1)) * w_k + r.score * w_s,
                 source := "hybrid" }) ∧
    (∀ j kr, (kws.take top_k).get? j = some kr →
      sems.find? (fun s => s.id == kr.sid) = none →
        sLookup (semPhase w_s sems (kwPhase w_k kws.length top_k kws)) kr.sid =
          some { score := (1 - (j : ℚ) / ((kws.length : ℚ) + 1)) * w_k,
                 source := "keyword" }) ∧
    (∀ k, k ∉ (kws.take top_k).map (fun r => r.sid) →
      ∀ r, sems.find? (fun s => s.id == k) = some r →
        sLookup (semPhase w_s sems (kwPhase w_k kws.length top_k kws)) k =
          some { score := r.score * w_s, source := "semantic" }) ∧
    (∀ k, k ∉ (kws.take top_k).map (fun r => r.sid) →
      sems.find? (fun s => s.id == k) = none →
        sLookup (semPhase w_s sems (kwPhase w_k kws.length top_k kws)) k = none) := by
  have hgtot : ∀ a b : String × HybridEntry,
      (decide (b.2.score ≤ a.2.score)) = true ∨ (decide (a.2.score ≤ b.2.score)) = true := by
    intro a b
    rcases le_total b.2.score a.2.score with h | h
    · exact Or.inl (decide_eq_true h)
    · exact Or.inr (decide_eq_true h)
  have hgtrans : ∀ a b c : String × HybridEntry,
      (decide (b.2.score ≤ a.2.score)) = true → (decide (c.2.score ≤ b.2.score)) = true →
      (decide (c.2.score ≤ a.2.score)) = true := by
    intro a b c h1 h2
    exact decide_eq_true (le_trans (of_decide_eq_true h2) (of_decide_eq_true h1))
  refine ⟨rfl, ?_, ?_, ?_, ?_, ?_, ?_⟩
  · exact List.length_take_le top_k _
  · have hsorted := pySortDesc_sorted (fun a b : String × HybridEntry =>
      decide (b.2.score ≤ a.2.score)) hgtot hgtrans
      (semPhase w_s sems (kwPhase w_k kws.length top_k kws))
    have htake := List.Pairwise.sublist (List.take_sublist top_k _) hsorted
    exact htake.imp (fun h => of_decide_eq_true h)
  · intro j kr hj r hr
    rw [semPhase_lookup w_s sems _ kr.sid hsnd, hr,
      kwPhase_lookup w_k kws.length top_k kws hknd j kr hj]
  · intro j kr hj hr
    rw [semPhase_lookup w_s sems _ kr.sid hsnd, hr,
      kwPhase_lookup w_k kws.length top_k kws hknd j kr hj]
  · intro k hk r hr
    rw [semPhase_lookup w_s sems _ k hsnd, hr,
      kwPhase_lookup_notin w_k kws.length top_k kws k hk]
  · intro k hk hr
    rw [semPhase_lookup w_s sems _ k hsnd, hr,
      kwPhase_lookup_notin w_k kws.length top_k kws k hk]

theorem C5_witness :
    (hybrid_search [KwResult.mk "a" "A"] [SearchResult.mk "a" "A" (1/2)]
      5 (2/5) (3/5)).length ≤ 5 ∧
    sLookup (semPhase (3/5) [SearchResult.mk "a" "A" (1/2)]
        (kwPhase (2/5) 1 5 [KwResult.mk "a" "A"])) "a" =
      some { score := (1 - ((0 : Nat) : ℚ) / (((1 : Nat) : ℚ) + 1)) * (2/5) + (1/2) * (3/5),
             source := "hybrid" } := by
  have h := C5_hybrid_fusion_amended [KwResult.mk "a" "A"] [SearchResult.mk "a" "A" (1/2)]
    5 (2/5) (3/5) (by decide) (by decide)
  exact ⟨h.2.1, h.2.2.2.1 0 (KwResult.mk "a" "A") rfl (SearchResult.mk "a" "A" (1/2)) rfl⟩

end Embedding
